import Mathlib

/-!
# Verification of the NodeModal editing core (jsoncrack)

Shallow embedding of `src/features/modals/NodeModal/index.tsx`:

* `parsePrimitive`  — the scalar coercion helper (module-scope `parsePrimitive`);
* `setValueAtPath`  — the path-addressed mutator (module-scope `setValueAtPath`),
  embedded at the JSON-value level (the net effect of the imperative cursor walk
  on the object passed in, with a strict-mode `TypeError` modelled as `none`);
* the edit-session orchestration (`NodeModal`'s form-population effect and
  `handleSave`) as pure state transitions on an explicit session state;
* a second, reference-level embedding of the same mutator over an explicit
  heap of numbered cells, used to state the deep-copy / no-aliasing property
  of the `handleSave` clone-then-mutate sequence.

JavaScript semantics modelled explicitly:

* JS numbers are modelled as exact signed decimals (`JSNum`); `Number(·)` and
  `String(·)` are modelled for plain decimal numerals (optional `-`, digits,
  optional fraction).  Exponent forms, hexadecimal, `Infinity` and inputs with
  surrounding whitespace are modelled as failing to parse; for all inputs of
  the claims below the modelled fragment agrees with IEEE-754 JS behaviour.
* JS arrays may carry non-index string properties (created by assigning a
  non-numeric string key on an array); `JSON.stringify` drops them.  Holes in
  sparse arrays behave as `null` for every observation the code makes
  (`== null` checks and serialization), so they are modelled as `null`.
* Exotic array keys (`"length"` and indices at or beyond `2^32 - 1`) do not
  occur in node paths and are outside the modelled fragment.
* The file is an ES module, hence strict mode: property assignment on a
  primitive throws `TypeError`; the embedding returns `none` there.
-/

set_option autoImplicit false

namespace JsonCrack

/-- A path segment: array index (JS `number`) or object key (JS `string`). -/
inductive Seg where
  | idx (n : Nat)
  | key (s : String)
deriving DecidableEq, Repr

/-- Exact decimal model of a (non-NaN) JS number produced by `Number(·)` on a
plain decimal numeral: value is `(if neg then -1 else 1) * mant / 10 ^ frac`.
`jsNumberParse` only produces normalized values (no trailing fractional
zeros, no negative zero). -/
structure JSNum where
  neg : Bool
  mant : Nat
  frac : Nat
deriving DecidableEq, Repr

/-- A JS value of JSON shape.  `vArr` carries the element list plus the
non-index string properties that strict assignment of a non-numeric key on an
array creates (dropped by `JSON.stringify`). -/
inductive JSValue where
  | vNull
  | vBool (b : Bool)
  | vNum (n : JSNum)
  | vStr (s : String)
  | vArr (elems : List JSValue) (extras : List (String × JSValue))
  | vObj (fields : List (String × JSValue))
deriving Repr

mutual

/-- Structural equality decision for `JSValue` (the nested inductive defeats
automatic deriving). -/
def decEqVal : (a b : JSValue) → Decidable (a = b)
  | .vNull, .vNull => isTrue rfl
  | .vBool a, .vBool b =>
    if h : a = b then isTrue (by rw [h]) else isFalse (by intro hc; injection hc; contradiction)
  | .vNum a, .vNum b =>
    if h : a = b then isTrue (by rw [h]) else isFalse (by intro hc; injection hc; contradiction)
  | .vStr a, .vStr b =>
    if h : a = b then isTrue (by rw [h]) else isFalse (by intro hc; injection hc; contradiction)
  | .vArr es ex, .vArr es2 ex2 =>
    match decEqElems es es2, decEqFields ex ex2 with
    | isTrue h1, isTrue h2 => isTrue (by rw [h1, h2])
    | isFalse h1, _ => isFalse (by intro hc; injection hc; contradiction)
    | _, isFalse h2 => isFalse (by intro hc; injection hc; contradiction)
  | .vObj fs, .vObj fs2 =>
    match decEqFields fs fs2 with
    | isTrue h1 => isTrue (by rw [h1])
    | isFalse h1 => isFalse (by intro hc; injection hc; contradiction)
  | .vNull, .vBool _ => isFalse (fun h => JSValue.noConfusion h)
  | .vNull, .vNum _ => isFalse (fun h => JSValue.noConfusion h)
  | .vNull, .vStr _ => isFalse (fun h => JSValue.noConfusion h)
  | .vNull, .vArr _ _ => isFalse (fun h => JSValue.noConfusion h)
  | .vNull, .vObj _ => isFalse (fun h => JSValue.noConfusion h)
  | .vBool _, .vNull => isFalse (fun h => JSValue.noConfusion h)
  | .vBool _, .vNum _ => isFalse (fun h => JSValue.noConfusion h)
  | .vBool _, .vStr _ => isFalse (fun h => JSValue.noConfusion h)
  | .vBool _, .vArr _ _ => isFalse (fun h => JSValue.noConfusion h)
  | .vBool _, .vObj _ => isFalse (fun h => JSValue.noConfusion h)
  | .vNum _, .vNull => isFalse (fun h => JSValue.noConfusion h)
  | .vNum _, .vBool _ => isFalse (fun h => JSValue.noConfusion h)
  | .vNum _, .vStr _ => isFalse (fun h => JSValue.noConfusion h)
  | .vNum _, .vArr _ _ => isFalse (fun h => JSValue.noConfusion h)
  | .vNum _, .vObj _ => isFalse (fun h => JSValue.noConfusion h)
  | .vStr _, .vNull => isFalse (fun h => JSValue.noConfusion h)
  | .vStr _, .vBool _ => isFalse (fun h => JSValue.noConfusion h)
  | .vStr _, .vNum _ => isFalse (fun h => JSValue.noConfusion h)
  | .vStr _, .vArr _ _ => isFalse (fun h => JSValue.noConfusion h)
  | .vStr _, .vObj _ => isFalse (fun h => JSValue.noConfusion h)
  | .vArr _ _, .vNull => isFalse (fun h => JSValue.noConfusion h)
  | .vArr _ _, .vBool _ => isFalse (fun h => JSValue.noConfusion h)
  | .vArr _ _, .vNum _ => isFalse (fun h => JSValue.noConfusion h)
  | .vArr _ _, .vStr _ => isFalse (fun h => JSValue.noConfusion h)
  | .vArr _ _, .vObj _ => isFalse (fun h => JSValue.noConfusion h)
  | .vObj _, .vNull => isFalse (fun h => JSValue.noConfusion h)
  | .vObj _, .vBool _ => isFalse (fun h => JSValue.noConfusion h)
  | .vObj _, .vNum _ => isFalse (fun h => JSValue.noConfusion h)
  | .vObj _, .vStr _ => isFalse (fun h => JSValue.noConfusion h)
  | .vObj _, .vArr _ _ => isFalse (fun h => JSValue.noConfusion h)
termination_by a _ => sizeOf a

def decEqElems : (a b : List JSValue) → Decidable (a = b)
  | [], [] => isTrue rfl
  | [], _ :: _ => isFalse (fun h => List.noConfusion h)
  | _ :: _, [] => isFalse (fun h => List.noConfusion h)
  | a :: t, b :: t2 =>
    match decEqVal a b, decEqElems t t2 with
    | isTrue h1, isTrue h2 => isTrue (by rw [h1, h2])
    | isFalse h1, _ => isFalse (by intro hc; injection hc; contradiction)
    | _, isFalse h2 => isFalse (by intro hc; injection hc; contradiction)
termination_by a _ => sizeOf a

def decEqFields : (a b : List (String × JSValue)) → Decidable (a = b)
  | [], [] => isTrue rfl
  | [], _ :: _ => isFalse (fun h => List.noConfusion h)
  | _ :: _, [] => isFalse (fun h => List.noConfusion h)
  | (k, a) :: t, (k2, b) :: t2 =>
    match String.decEq k k2, decEqVal a b, decEqFields t t2 with
    | isTrue hk, isTrue h1, isTrue h2 => isTrue (by rw [hk, h1, h2])
    | isFalse hk, _, _ =>
      isFalse (by intro hc; injection hc with hp _; injection hp; contradiction)
    | _, isFalse h1, _ =>
      isFalse (by intro hc; injection hc with hp _; injection hp; contradiction)
    | _, _, isFalse h2 => isFalse (by intro hc; injection hc; contradiction)
termination_by a _ => sizeOf a

end

instance : DecidableEq JSValue := decEqVal

namespace JSValue

/-- `typeof v === "object"` for a non-null JSON-shaped value (arrays included). -/
def isObjectLike : JSValue → Bool
  | vArr _ _ => true
  | vObj _ => true
  | _ => false

/-- The loose `== null` test (`null` and `undefined`ish reads both satisfy it). -/
def isNullish : JSValue → Bool
  | vNull => true
  | _ => false

end JSValue

/-- Insertion-ordered update of an association list: JS `o[k] = v` on a plain
object (updates in place, appends new keys at the end). -/
def upsert {α : Type} : List (String × α) → String → α → List (String × α)
  | [], k, v => [(k, v)]
  | (k0, v0) :: t, k, v => if k0 = k then (k, v) :: t else (k0, v0) :: upsert t k v

/-- Value of a digit character. -/
def digitVal (c : Char) : Nat := c.toNat - 48

/-- Accumulate a digit string into a natural number. -/
def digitsToNat (cs : List Char) : Nat := cs.foldl (fun a c => a * 10 + digitVal c) 0

/-- Normalize a decimal: strip trailing fractional zeros; collapse `-0` to `0`
(JS `Number("-0")` is `-0`, but `String(-0)` is `"0"`, so for the round-trip
check in `parsePrimitive` the normalized form is what matters). -/
def normNum (neg : Bool) : Nat → Nat → JSNum
  | m, 0 => if m = 0 then ⟨false, 0, 0⟩ else ⟨neg, m, 0⟩
  | m, f + 1 =>
    if m = 0 then ⟨false, 0, 0⟩
    else if m % 10 = 0 then normNum neg (m / 10) f
    else ⟨neg, m, f + 1⟩

/-- Model of JS `Number(v)` on the plain decimal fragment: optional `-`, then
digits with at most one decimal point and at least one digit overall.
`none` models `NaN` (and the unmodelled exotic forms, see the header). -/
def jsNumberParse (s : String) : Option JSNum :=
  let cs := s.toList
  let negcs : Bool × List Char :=
    match cs with
    | '-' :: t => (true, t)
    | _ => (false, cs)
  let ip := negcs.2.takeWhile Char.isDigit
  let rest := negcs.2.dropWhile Char.isDigit
  match rest with
  | [] => if ip.isEmpty then none else some (normNum negcs.1 (digitsToNat ip) 0)
  | '.' :: fp =>
    if fp.all Char.isDigit ∧ ¬(ip.isEmpty ∧ fp.isEmpty) then
      some (normNum negcs.1 (digitsToNat (ip ++ fp)) fp.length)
    else none
  | _ => none

/-- Left-pad a digit string with zeros to the given width. -/
def padZeros (s : String) (w : Nat) : String :=
  String.mk (List.replicate (w - s.length) '0') ++ s

/-- Model of JS `String(n)` for a normalized decimal number. -/
def jsNumToString (n : JSNum) : String :=
  let sign := if n.neg then "-" else ""
  if n.frac = 0 then sign ++ toString n.mant
  else sign ++ toString (n.mant / 10 ^ n.frac) ++ "." ++
    padZeros (toString (n.mant % 10 ^ n.frac)) n.frac

/-- `String(·)` on a JSON-shaped value; arrays render as the comma-join of
their elements (`Array.prototype.toString`) with `null` rendering empty,
objects as `"[object Object]"`.  Mirrors how `String(r.value)` displays a
row value. -/
def jsString : JSValue → String
  | .vNull => "null"
  | .vBool true => "true"
  | .vBool false => "false"
  | .vNum n => jsNumToString n
  | .vStr s => s
  | .vObj _ => "[object Object]"
  | .vArr es _ => joinElems es
where
  /-- `Array.prototype.toString`: elements joined by `","`, `null`/holes empty. -/
  joinElems : List JSValue → String
  | [] => ""
  | [.vNull] => ""
  | [v] => jsString v
  | .vNull :: t => "," ++ joinElems t
  | v :: t => jsString v ++ "," ++ joinElems t

/-- `String(v ?? "")` as used on row values: `null`ish becomes the empty
string, everything else is `String(·)`. -/
def displayText : JSValue → String
  | .vNull => ""
  | v => jsString v

/-- The module-scope `parsePrimitive` helper of `NodeModal/index.tsx`:

```ts
const parsePrimitive = (v: string) => {
  if (v === "true") return true;
  if (v === "false") return false;
  if (v === "null") return null;
  if (v === "") return "";
  const n = Number(v);
  if (!Number.isNaN(n) && String(n) === v) return n;
  return v;
};
``` -/
def parsePrimitive (v : String) : JSValue :=
  if v = "true" then .vBool true
  else if v = "false" then .vBool false
  else if v = "null" then .vNull
  else if v = "" then .vStr ""
  else
    match jsNumberParse v with
    | some n => if jsNumToString n = v then .vNum n else .vStr v
    | none => .vStr v

/-- JS property-key conversion of a segment: a number used as a key becomes
its decimal string (`o[0]` is `o["0"]`). -/
def segToKey : Seg → String
  | .idx n => Nat.repr n
  | .key s => s

/-- A string is a JS array index when it is the canonical decimal form of a
natural number (`arr["2"]` is element 2; `arr["02"]` is a plain property). -/
def parseArrayIndex (s : String) : Option Nat :=
  let cs := s.toList
  if cs ≠ [] ∧ cs.all Char.isDigit then
    let n := digitsToNat cs
    if Nat.repr n = s then some n else none
  else none

/-- Element read `arr[n]`: out-of-range and holes read as `undefined`,
which the code only ever observes through `== null`; modelled as `null`. -/
def getElem0 (es : List JSValue) (n : Nat) : JSValue := es.getD n JSValue.vNull

/-- Element write `arr[n] = v`: in-range writes in place, beyond-length
writes extend the array sparsely (holes modelled as `null`). -/
def setPad (es : List JSValue) (n : Nat) (v : JSValue) : List JSValue :=
  if n < es.length then es.set n v
  else es ++ List.replicate (n - es.length) JSValue.vNull ++ [v]

/-- Property read `cur[k]` for a string key on an array: canonical numeric
strings address elements, other keys the non-index properties. -/
def getArrKey (es : List JSValue) (ex : List (String × JSValue)) (k : String) : JSValue :=
  match parseArrayIndex k with
  | some n => getElem0 es n
  | none => ((ex.lookup k).getD JSValue.vNull)

/-- Property write `cur[k] = v` for a string key on an array. -/
def setArrKey (es : List JSValue) (ex : List (String × JSValue)) (k : String)
    (v : JSValue) : JSValue :=
  match parseArrayIndex k with
  | some n => .vArr (setPad es n v) ex
  | none => .vArr es (upsert ex k v)

/-- The fresh container created for a missing level, picked from the *next*
segment's kind: `typeof nextSeg === "number" ? [] : {}`. -/
def freshFor : Seg → JSValue
  | .idx _ => .vArr [] []
  | .key _ => .vObj []

/-- The final assignment `cur[last] = replacement`.  `none` models the
strict-mode `TypeError` raised by property assignment on a primitive. -/
def writeLast (cur : JSValue) (last : Seg) (repl : JSValue) : Option JSValue :=
  match cur with
  | .vObj fs => some (.vObj (upsert fs (segToKey last) repl))
  | .vArr es ex =>
    match last with
    | .idx n => some (.vArr (setPad es n repl) ex)
    | .key k => some (setArrKey es ex k repl)
  | _ => none

/-- Net effect of the cursor loop of `setValueAtPath` on the object the
cursor currently points to, for a non-empty remaining path.

Mirrors, step by step:

```ts
for (let i = 0; i < path.length - 1; i++) {
  const seg = path[i];
  const nextSeg = path[i + 1];
  if (typeof seg === "number") {
    if (!Array.isArray(cur)) { cur = []; }          // rebinds the LOCAL cursor only
    if (cur[seg] == null) { cur[seg] = typeof nextSeg === "number" ? [] : {}; }
    cur = cur[seg];
  } else {
    if (cur[seg] == null || typeof cur[seg] !== "object") {
      cur[seg] = typeof nextSeg === "number" ? [] : {};
    }
    cur = cur[seg];
  }
}
const last = path[path.length - 1];
cur[last as any] = replacement;
```

When a numeric segment finds a non-array cursor, `cur = []` rebinds only the
local variable: the fresh array is never linked into the object being
returned, every later write lands in that detached structure, and the value
under the original cursor is left exactly as it was — hence `some cur` in
that branch (no `TypeError` can occur past the detachment, since everything
reachable there is a freshly created container). -/
def walkVal (repl : JSValue) : JSValue → List Seg → Option JSValue
  | cur, [] => some cur
  | cur, [last] => writeLast cur last repl
  | cur, seg :: next :: rest =>
    match seg with
    | .idx n =>
      match cur with
      | .vArr es ex =>
        let child := getElem0 es n
        if child.isNullish then
          (walkVal repl (freshFor next) (next :: rest)).map
            (fun c2 => .vArr (setPad es n c2) ex)
        else
          (walkVal repl child (next :: rest)).map
            (fun c2 => .vArr (setPad es n c2) ex)
      | _ => some cur
    | .key k =>
      match cur with
      | .vObj fs =>
        let child := ((fs.lookup k).getD JSValue.vNull)
        if child.isObjectLike then
          (walkVal repl child (next :: rest)).map (fun c2 => .vObj (upsert fs k c2))
        else
          (walkVal repl (freshFor next) (next :: rest)).map
            (fun c2 => .vObj (upsert fs k c2))
      | .vArr es ex =>
        let child := getArrKey es ex k
        if child.isObjectLike then
          (walkVal repl child (next :: rest)).map (fun c2 => setArrKey es ex k c2)
        else
          (walkVal repl (freshFor next) (next :: rest)).map
            (fun c2 => setArrKey es ex k c2)
      | _ => none

/-- The module-scope `setValueAtPath` of `NodeModal/index.tsx`, at the value
level: the value returned by the call (which for a non-empty path is the
object passed in, as mutated by the loop).  `none` models a thrown
`TypeError`. -/
def setValueAtPath (obj : JSValue) (path : List Seg) (repl : JSValue) : Option JSValue :=
  match path with
  | [] => some repl
  | _ :: _ => walkVal repl obj path

mutual

/-- The value denoted by the serialized text: `JSON.parse(JSON.stringify v)`.
Stringification drops the non-index properties of arrays; holes (modelled as
`null`) serialize as `null`. -/
def normalizeJson : JSValue → JSValue
  | .vNull => .vNull
  | .vBool b => .vBool b
  | .vNum n => .vNum n
  | .vStr s => .vStr s
  | .vArr es _ => .vArr (normalizeElems es) []
  | .vObj fs => .vObj (normalizeFields fs)
termination_by v => sizeOf v

def normalizeElems : List JSValue → List JSValue
  | [] => []
  | v :: t => normalizeJson v :: normalizeElems t
termination_by l => sizeOf l

def normalizeFields : List (String × JSValue) → List (String × JSValue)
  | [] => []
  | (k, v) :: t => (k, normalizeJson v) :: normalizeFields t
termination_by l => sizeOf l

end

/-- Strict read of the value at a path: numeric segments descend only through
arrays (in range), string segments only through object fields.  Used to state
when a document "has" the node's value at the node's path. -/
def getPathStrict : JSValue → List Seg → Option JSValue
  | v, [] => some v
  | v, s :: rest =>
    match v, s with
    | .vObj fs, .key k =>
      match fs.lookup k with
      | some child => getPathStrict child rest
      | none => none
    | .vArr es _, .idx n =>
      match es.get? n with
      | some child => getPathStrict child rest
      | none => none
    | _, _ => none

/-- One displayable attribute row of the selected node (`NodeData["text"]`
element): `key` is absent (`null`/`undefined`) for a bare-scalar node,
`value` is the row value as stored, `rtype` the row's type tag
(`"object"`, `"array"`, or a scalar kind). -/
structure FieldRow where
  key : Option String
  value : JSValue
  rtype : String
deriving DecidableEq, Repr

/-- The selected node: its flattened rows and its path (absent rows/path are
modelled as the empty list, matching the code's `?? []` / empty-path
handling). -/
structure NodeData where
  text : List FieldRow
  path : List Seg
deriving DecidableEq, Repr

/-- JS truthiness of `r.key`: `false` for an absent key and for `""`. -/
def keyTruthy (r : FieldRow) : Bool :=
  match r.key with
  | some k => k ≠ ""
  | none => false

/-- `r.key ?? ""`. -/
def keyStr (r : FieldRow) : String := r.key.getD ""

/-- A row the form edits: scalar-typed with a truthy key
(`r.type !== "array" && r.type !== "object" && r.key`). -/
def editableRow (r : FieldRow) : Bool :=
  r.rtype ≠ "array" && r.rtype ≠ "object" && keyTruthy r

/-- Rows-level bare-scalar test of the form-population effect:
`nodeData.text?.length === 1 && !nodeData.text[0].key` (JS falsiness: an
empty-string key also counts as bare here). -/
def isBareRows : List FieldRow → Bool
  | [r] => !(keyTruthy r)
  | _ => false

/-- The bare-scalar test of the form-population effect. -/
def isBareEffect (node : NodeData) : Bool := isBareRows node.text

/-- Rows-level bare-scalar test of `handleSave`:
`nodeData.text?.length === 1 && nodeData.text[0].key == null` (loose equality
with `null`: only an absent key counts, an empty-string key does not). -/
def isBareSaveRows : List FieldRow → Bool
  | [r] => r.key.isNone
  | _ => false

/-- The bare-scalar test of `handleSave`. -/
def isBareSave (node : NodeData) : Bool := isBareSaveRows node.text

/-- The EditForm: insertion-ordered string-to-string map. -/
abbrev EditForm := List (String × String)

/-- Form population when editing starts (the `useEffect` body for
`isEditing && nodeData`):

```ts
if (nodeData.text?.length === 1 && !nodeData.text[0].key) {
  setForm({ "": String(nodeData.text[0].value ?? "") });
  return;
}
const values: Record<string, string> = {};
nodeData.text?.forEach(r => {
  if (r.type !== "array" && r.type !== "object" && r.key) {
    values[r.key] = String(r.value ?? "");
  }
});
setForm(values);
``` -/
def formFold (rows : List FieldRow) : EditForm :=
  rows.foldl
    (fun acc r => if editableRow r then upsert acc (keyStr r) (displayText r.value) else acc)
    []

/-- Rows-level form population: the bare-scalar early return, otherwise the
`forEach` accumulation (`formFold`). -/
def initialFormRows : List FieldRow → EditForm
  | [r] => if keyTruthy r then formFold [r] else [("", displayText r.value)]
  | rows => formFold rows

def initialForm (node : NodeData) : EditForm := initialFormRows node.text

/-- The rows `handleSave` writes back to the selection store:

```ts
const newRows = nodeData.text?.map(r => {
  if (r.type !== "array" && r.type !== "object" && r.key
      && Object.prototype.hasOwnProperty.call(form, r.key)) {
    return { ...r, value: form[r.key] };
  }
  if (r.key == null && Object.prototype.hasOwnProperty.call(form, "")) {
    return { ...r, value: form[""] };
  }
  return r;
}) ?? [];
``` -/
def newRowsOf (node : NodeData) (form : EditForm) : List FieldRow :=
  node.text.map fun r =>
    if editableRow r ∧ (form.lookup (keyStr r)).isSome then
      { r with value := .vStr ((form.lookup (keyStr r)).getD "") }
    else if r.key = none ∧ (form.lookup "").isSome then
      { r with value := .vStr ((form.lookup "").getD "") }
    else r

/-- The replacement value `handleSave` builds for the node:

```ts
let replacement: any;
if (nodeData.text?.length === 1 && nodeData.text[0].key == null) {
  replacement = parsePrimitive(form[""] ?? String(newRows[0]?.value ?? ""));
} else {
  const obj: Record<string, any> = {};
  Object.entries(form).forEach(([k, v]) => { obj[k] = parsePrimitive(v); });
  replacement = obj;
}
``` -/
def replacementOf (node : NodeData) (form : EditForm) (newRows : List FieldRow) : JSValue :=
  if isBareSave node then
    parsePrimitive
      ((form.lookup "").getD
        (displayText (match newRows.head? with | some r => r.value | none => .vNull)))
  else
    .vObj (form.foldl (fun acc p => upsert acc p.1 (parsePrimitive p.2)) [])

/-- The document store text (`useJson`): empty (falsy, parsed as `{}`),
syntactically invalid (`JSON.parse` throws), or valid with the given parsed
value.  The store itself is external to the file under `src/`; it is
modelled from the spec as a plain serialized-text cell with `getJson` /
`setJson`. -/
inductive JsonDoc where
  | emptyText
  | invalidText
  | validText (v : JSValue)
deriving DecidableEq, Repr

/-- The edit-session state: the `isEditing` flag and `form` component state,
the selection store's current node (`none` when no node is selected), and the
document store's text. -/
structure Session where
  isEditing : Bool
  form : EditForm
  selection : Option NodeData
  doc : JsonDoc
deriving DecidableEq, Repr

/-- `handleSave`, as a transition on the session state.

* With no selected node it returns early (`if (!nodeData) return`), changing
  nothing.
* The selection store is updated with `newRows` *before* the `try` block
  (modelled from the spec: the selection store exposes an update operation
  taking the full replacement rows, matching the `updateSelectedNode ?? …`
  compatibility shim).
* Inside `try`: the document text is read; empty text parses to `{}`,
  invalid text throws.  The replacement is built, `setValueAtPath` is applied
  to the deep clone `JSON.parse(JSON.stringify(root))` (at the value level
  the clone is `normalizeJson root`), and the result (the replacement itself
  for an empty path) is re-serialized into the store; a thrown `TypeError`
  from the mutator is caught by the same `catch`, leaving the store
  untouched.
* `setIsEditing(false)` runs after the `try`/`catch`, and the population
  effect then resets the form to `{}`. -/
def handleSave (s : Session) : Session :=
  match s.selection with
  | none => s
  | some node =>
    let newRows := newRowsOf node s.form
    let docAfter : JsonDoc :=
      match s.doc with
      | .invalidText => s.doc
      | d =>
        let root : JSValue := match d with | .validText v => v | _ => .vObj []
        let replacement := replacementOf node s.form newRows
        let newRoot := normalizeJson root
        match setValueAtPath newRoot node.path replacement with
        | none => s.doc
        | some finalv =>
          let toSave := if node.path ≠ [] then finalv else replacement
          .validText (normalizeJson toSave)
    { isEditing := false
      form := []
      selection := some { node with text := newRows }
      doc := docAfter }

/-! ## Reference-level model

`setValueAtPath` mutates the object it is handed; `handleSave` guards the
document by mutating only the deep clone `JSON.parse(JSON.stringify(root))`.
To state that the caller's original is never touched, the object graph is
made explicit: a heap of numbered cells, with containers holding cell
references.  Array elements are `Option Nat` so that true holes exist at
this level (`none`); `cRef.lookup` of an element that is a reference to a
`cNull` cell and a hole both satisfy the loop's `== null` tests. -/

/-- A heap cell: one JS object or primitive value. -/
inductive Cell where
  | cNull
  | cBool (b : Bool)
  | cNum (n : JSNum)
  | cStr (s : String)
  | cArr (elems : List (Option Nat)) (extras : List (String × Nat))
  | cObj (fields : List (String × Nat))
deriving DecidableEq, Repr

/-- The references a cell holds. -/
def cellRefs : Cell → List Nat
  | .cArr es ex => es.reduceOption ++ ex.map Prod.snd
  | .cObj fs => fs.map Prod.snd
  | _ => []

/-- A heap: allocated cells (newest first; an update shadows) and the next
fresh reference. -/
structure Heap where
  cells : List (Nat × Cell)
  next : Nat
deriving DecidableEq, Repr

namespace Heap

def lookup (h : Heap) (r : Nat) : Option Cell := h.cells.lookup r

def update (h : Heap) (r : Nat) (c : Cell) : Heap := ⟨(r, c) :: h.cells, h.next⟩

def alloc (h : Heap) (c : Cell) : Heap × Nat := (⟨(h.next, c) :: h.cells, h.next + 1⟩, h.next)

/-- Every allocated reference is below the allocation counter. -/
def WF (h : Heap) : Prop := ∀ p ∈ h.cells, p.1 < h.next

end Heap

/-- Element read on a heap array, as the `== null` test sees it: `true` when
the slot is a hole, out of range, or references a `null` cell. -/
def heapElemNullish (h : Heap) (es : List (Option Nat)) (n : Nat) : Bool :=
  match es.getD n none with
  | none => true
  | some r => h.lookup r = some .cNull

/-- The element reference at a slot (`none` for holes/out of range). -/
def heapElemRef (es : List (Option Nat)) (n : Nat) : Option Nat := es.getD n none

/-- Element write on a heap array, with sparse extension (holes as `none`). -/
def setPadRef (es : List (Option Nat)) (n : Nat) (r : Nat) : List (Option Nat) :=
  if n < es.length then es.set n (some r)
  else es ++ List.replicate (n - es.length) none ++ [some r]

/-- Property read `cur[k]` on a heap array for a string key. -/
def heapArrKeyRef (es : List (Option Nat)) (ex : List (String × Nat)) (k : String) : Option Nat :=
  match parseArrayIndex k with
  | some n => heapElemRef es n
  | none => ex.lookup k

/-- Property write `cur[k] = r` on a heap array for a string key. -/
def heapSetArrKey (es : List (Option Nat)) (ex : List (String × Nat)) (k : String)
    (r : Nat) : Cell :=
  match parseArrayIndex k with
  | some n => .cArr (setPadRef es n r) ex
  | none => .cArr es (upsert ex k r)

/-- `typeof cell === "object" && cell !== null` at the heap level. -/
def cellObjectLike : Option Cell → Bool
  | some (.cArr _ _) => true
  | some (.cObj _) => true
  | _ => false

/-- The fresh cell for a missing level, from the next segment's kind. -/
def freshCellFor : Seg → Cell
  | .idx _ => .cArr [] []
  | .key _ => .cObj []

/-- The cursor loop of `setValueAtPath` at the heap level, for a non-empty
path; returns the post-heap and whether the loop completed (false = the
strict-mode `TypeError` of a property assignment on a primitive).  The
`cur = []` rebinding on a numeric segment over a non-array allocates a fresh
array cell that is *not* linked to any existing cell; the walk continues from
it (inlined here: the fresh empty array necessarily takes the hole branch at
the same segment). -/
def walkHeap (repl : Nat) : Heap → Nat → List Seg → Heap × Bool
  | h, _, [] => (h, true)
  | h, cur, [last] =>
    match h.lookup cur with
    | some (.cObj fs) => (h.update cur (.cObj (upsert fs (segToKey last) repl)), true)
    | some (.cArr es ex) =>
      match last with
      | .idx n => (h.update cur (.cArr (setPadRef es n repl) ex), true)
      | .key k => (h.update cur (heapSetArrKey es ex k repl), true)
    | _ => (h, false)
  | h, cur, seg :: next :: rest =>
    match seg with
    | .idx n =>
      match h.lookup cur with
      | some (.cArr es ex) =>
        if heapElemNullish h es n then
          let af := h.alloc (freshCellFor next)
          let h2 := af.1.update cur (.cArr (setPadRef es n af.2) ex)
          walkHeap repl h2 af.2 (next :: rest)
        else
          match heapElemRef es n with
          | some r => walkHeap repl h r (next :: rest)
          | none => (h, false)
      | _ =>
        let ad := h.alloc (.cArr [] [])
        let af := ad.1.alloc (freshCellFor next)
        let h2 := af.1.update ad.2 (.cArr (setPadRef [] n af.2) [])
        walkHeap repl h2 af.2 (next :: rest)
    | .key k =>
      match h.lookup cur with
      | some (.cObj fs) =>
        match fs.lookup k with
        | some r =>
          if cellObjectLike (h.lookup r) then walkHeap repl h r (next :: rest)
          else
            let af := h.alloc (freshCellFor next)
            let h2 := af.1.update cur (.cObj (upsert fs k af.2))
            walkHeap repl h2 af.2 (next :: rest)
        | none =>
          let af := h.alloc (freshCellFor next)
          let h2 := af.1.update cur (.cObj (upsert fs k af.2))
          walkHeap repl h2 af.2 (next :: rest)
      | some (.cArr es ex) =>
        match heapArrKeyRef es ex k with
        | some r =>
          if cellObjectLike (h.lookup r) then walkHeap repl h r (next :: rest)
          else
            let af := h.alloc (freshCellFor next)
            let h2 := af.1.update cur (heapSetArrKey es ex k af.2)
            walkHeap repl h2 af.2 (next :: rest)
        | none =>
          let af := h.alloc (freshCellFor next)
          let h2 := af.1.update cur (heapSetArrKey es ex k af.2)
          walkHeap repl h2 af.2 (next :: rest)
      | _ => (h, false)

/-- `setValueAtPath` at the heap level: empty path returns the replacement
reference directly; otherwise the loop runs and the object passed in is
returned (`none` = thrown `TypeError`, the heap keeping whatever mutation
happened before the throw). -/
def setValueAtPathHeap (h : Heap) (obj : Nat) (path : List Seg) (repl : Nat) :
    Heap × Option Nat :=
  match path with
  | [] => (h, some repl)
  | _ :: _ =>
    let hb := walkHeap repl h obj path
    (hb.1, if hb.2 then some obj else none)

mutual

/-- Allocate a JSON value into the heap (`JSON.parse` of its text). -/
def allocValue : Heap → JSValue → Heap × Nat
  | h, .vNull => h.alloc .cNull
  | h, .vBool b => h.alloc (.cBool b)
  | h, .vNum n => h.alloc (.cNum n)
  | h, .vStr s => h.alloc (.cStr s)
  | h, .vArr es ex =>
    let he := allocElemList h es
    let hx := allocFieldList he.1 ex
    hx.1.alloc (.cArr (he.2.map some) hx.2)
  | h, .vObj fs =>
    let hf := allocFieldList h fs
    hf.1.alloc (.cObj hf.2)
termination_by _ v => sizeOf v

def allocElemList : Heap → List JSValue → Heap × List Nat
  | h, [] => (h, [])
  | h, v :: t =>
    let hv := allocValue h v
    let ht := allocElemList hv.1 t
    (ht.1, hv.2 :: ht.2)
termination_by _ l => sizeOf l

def allocFieldList : Heap → List (String × JSValue) → Heap × List (String × Nat)
  | h, [] => (h, [])
  | h, (k, v) :: t =>
    let hv := allocValue h v
    let ht := allocFieldList hv.1 t
    (ht.1, (k, hv.2) :: ht.2)
termination_by _ l => sizeOf l

end

/-- Map a fallible function over a list, failing if any element fails
(`Option`-monadic map, written structurally). -/
def mapOption {α β : Type} (f : α → Option β) : List α → Option (List β)
  | [] => some []
  | a :: t =>
    match f a, mapOption f t with
    | some b, some l => some (b :: l)
    | _, _ => none

/-- Read the JSON value a reference denotes (`JSON.stringify` then
`JSON.parse` of the text): non-index array properties are dropped, holes
serialize as `null`; the fuel bounds the traversal (a cyclic graph, on which
`JSON.stringify` throws, exhausts it). -/
def readValueF : Nat → Heap → Nat → Option JSValue
  | 0, _, _ => none
  | fuel + 1, h, r =>
    match h.lookup r with
    | some .cNull => some .vNull
    | some (.cBool b) => some (.vBool b)
    | some (.cNum n) => some (.vNum n)
    | some (.cStr s) => some (.vStr s)
    | some (.cArr es _) =>
      (mapOption (fun e =>
        match e with
        | none => some JSValue.vNull
        | some r2 => readValueF fuel h r2) es).map (fun l => .vArr l [])
    | some (.cObj fs) =>
      (mapOption (fun p => (readValueF fuel h p.2).map (fun v => (p.1, v))) fs).map .vObj
    | none => none

/-- The persistence steps of `handleSave` at the reference level:

```ts
const newRoot = JSON.parse(JSON.stringify(root));
const final = setValueAtPath(newRoot, nodeData.path, replacement);
```

`none` when stringification fails (fuel exhausted / cyclic).  On success the
result is the post-heap, the mutator's return (`none` there = `TypeError`),
and the reference of the clone the mutator was handed. -/
def installClone (h : Heap) (root : Nat) (path : List Seg) (repl : Nat) (fuel : Nat) :
    Option (Heap × Option Nat × Nat) :=
  match readValueF fuel h root with
  | none => none
  | some v =>
    let hc := allocValue h v
    let hr := setValueAtPathHeap hc.1 hc.2 path repl
    some (hr.1, hr.2, hc.2)

/-! ## Concrete example values used by individual claims -/

/-- The JSON number for a small natural. -/
def jn (n : Nat) : JSValue := .vNum ⟨false, n, 0⟩

/-- The root `{"x": [1,2,3]}` of the destructive-overwrite example. -/
def rootX123 : JSValue := .vObj [("x", .vArr [jn 1, jn 2, jn 3] [])]

/-- A node with an editable empty-string-keyed row next to a normal row. -/
def nodeEmptyKey : NodeData :=
  ⟨[⟨some "", jn 1, "number"⟩, ⟨some "a", jn 2, "number"⟩], []⟩

/-- A bare-scalar node whose value is the *string* `"true"`, at path `["a"]`. -/
def nodeStrTrue : NodeData := ⟨[⟨none, .vStr "true", "string"⟩], [.key "a"]⟩

/-- Editing session for `nodeStrTrue` over the document `{"a": "true"}`,
with the form exactly as populated when editing starts. -/
def sessionStrTrue : Session :=
  ⟨true, initialForm nodeStrTrue, some nodeStrTrue, .validText (.vObj [("a", .vStr "true")])⟩

/-- A single-row node (key `"a"`, value `1`) with the empty path. -/
def nodeRootA : NodeData := ⟨[⟨some "a", jn 1, "number"⟩], []⟩

/-- A single-row node (key `"a"`, value `1`) at path `["x"]`. -/
def nodeXA : NodeData := ⟨[⟨some "a", jn 1, "number"⟩], [.key "x"]⟩

/-- Editing session for `nodeXA` over `{"x": {"a": 1}}` with the
freshly-populated form: a genuine no-op save. -/
def sessionNoop : Session :=
  ⟨true, initialForm nodeXA, some nodeXA, .validText (.vObj [("x", .vObj [("a", jn 1)])])⟩

/-- An editing session on `nodeRootA` whose document text is invalid, with an
edited form value. -/
def sessionInvalid : Session := ⟨true, [("a", "2")], some nodeRootA, .invalidText⟩

/-- A small heap: cell 0 is `{"x": "v"}` with the string cell 1. -/
def heapSmall : Heap := ⟨[(0, .cObj [("x", 1)]), (1, .cStr "v")], 2⟩

/-! ## Heap separation predicates (for the deep-copy property) -/

/-- The cells below `n` agree between two heaps. -/
def LowAgree (n : Nat) (h0 h2 : Heap) : Prop :=
  ∀ q, q < n → h2.lookup q = h0.lookup q

/-- Every cell at or above `n` references only cells at or above `n`. -/
def HighClosed (n : Nat) (h : Heap) : Prop :=
  ∀ q c, h.lookup q = some c → n ≤ q → ∀ x ∈ cellRefs c, n ≤ x

/-- `h2` extends `h` by freshly allocated cells only: the cell list grows by
a prefix whose references (keys and held cells alike) all lie in
`[h.next, h2.next)`. -/
def GoodExt (h h2 : Heap) : Prop :=
  h.next ≤ h2.next ∧ ∃ pre, h2.cells = pre ++ h.cells
    ∧ ∀ p ∈ pre, (h.next ≤ p.1 ∧ p.1 < h2.next)
        ∧ ∀ x ∈ cellRefs p.2, h.next ≤ x ∧ x < h2.next

/-! ## Helper lemmas -/

theorem lookup_cons {α : Type} (k k0 : String) (v0 : α) (t : List (String × α)) :
    List.lookup k ((k0, v0) :: t) = if k = k0 then some v0 else List.lookup k t := by
  by_cases h : k = k0
  · subst h; simp [List.lookup]
  · have hb : (k == k0) = false := beq_eq_false_iff_ne.mpr h
    simp [List.lookup, hb, h]

theorem lookup_upsert {α : Type} (l : List (String × α)) (k k2 : String) (v : α) :
    (upsert l k v).lookup k2 = if k2 = k then some v else l.lookup k2 := by
  induction l with
  | nil =>
    show List.lookup k2 [(k, v)] = _
    rw [lookup_cons]
  | cons p t ih =>
    obtain ⟨k0, v0⟩ := p
    by_cases h0 : k0 = k
    · subst h0
      by_cases h : k2 = k0 <;> simp [upsert, lookup_cons, h]
    · by_cases h : k2 = k0
      · subst h
        simp [upsert, h0, lookup_cons, ih, Ne.symm h0]
      · simp [upsert, h0, lookup_cons, h, ih]

/-- Keys present after the form-population fold over the rows. -/
theorem lookup_formFold (rows : List FieldRow) (acc : EditForm) (k : String) :
    (((rows.foldl
        (fun a r => if editableRow r then upsert a (keyStr r) (displayText r.value) else a)
        acc).lookup k).isSome = true)
      ↔ (((acc.lookup k).isSome = true)
          ∨ ∃ r ∈ rows, editableRow r = true ∧ keyStr r = k) := by
  induction rows generalizing acc with
  | nil => simp
  | cons r t ih =>
    by_cases he : editableRow r
    · simp only [List.foldl_cons, he, if_pos]
      rw [ih]
      constructor
      · rintro (hacc | hex)
        · rw [lookup_upsert] at hacc
          by_cases hk : k = keyStr r
          · exact Or.inr ⟨r, List.mem_cons_self r t, he, hk.symm⟩
          · rw [if_neg hk] at hacc
            exact Or.inl hacc
        · obtain ⟨r2, hr2, hr2e⟩ := hex
          exact Or.inr ⟨r2, List.mem_cons_of_mem r hr2, hr2e⟩
      · rintro (hacc | ⟨r2, hr2, hr2e, hr2k⟩)
        · left
          rw [lookup_upsert]
          by_cases hk : k = keyStr r
          · simp [hk]
          · rw [if_neg hk]; exact hacc
        · rcases List.mem_cons.mp hr2 with h | h
          · subst h
            left
            rw [lookup_upsert, if_pos hr2k.symm]
            rfl
          · exact Or.inr ⟨r2, h, hr2e, hr2k⟩
    · simp only [List.foldl_cons, he, if_neg, ite_false]
      rw [ih]
      constructor
      · rintro (hacc | ⟨r2, hr2, hr2e, hr2k⟩)
        · exact Or.inl hacc
        · exact Or.inr ⟨r2, List.mem_cons_of_mem r hr2, hr2e, hr2k⟩
      · rintro (hacc | ⟨r2, hr2, hr2e, hr2k⟩)
        · exact Or.inl hacc
        · rcases List.mem_cons.mp hr2 with h | h
          · subst h; exact absurd hr2e he
          · exact Or.inr ⟨r2, h, hr2e, hr2k⟩

/-! ## Claim C1 -/

/-- C1 counterexample: installing at `["x", "y"]` into `{"x": [1,2,3]}` does
*not* produce `{"x": {"y": replacement}}` — the string-segment guard
`typeof cur[seg] !== "object"` lets the array through, so the array at `x` is
not replaced by a fresh object. -/
theorem c1_counterexample :
    setValueAtPath rootX123 [.key "x", .key "y"] (.vStr "r")
      ≠ some (.vObj [("x", .vObj [("y", .vStr "r")])]) := by
  rw [show setValueAtPath rootX123 [.key "x", .key "y"] (.vStr "r")
      = some (.vObj [("x", .vArr [jn 1, jn 2, jn 3] [("y", .vStr "r")])]) from rfl]
  simp

/-- C1 amended: installing at `["x", "y"]` into `{"x": [1,2,3]}` keeps the
array at `x` and attaches the replacement as the non-index property `"y"` on
that array; serialization (`JSON.stringify`) drops that property, so the
persisted document is still `{"x": [1,2,3]}` — the array is neither replaced
nor merged, and the edit is silently lost on save. -/
theorem c1_amended (repl : JSValue) :
    setValueAtPath rootX123 [.key "x", .key "y"] repl
      = some (.vObj [("x", .vArr [jn 1, jn 2, jn 3] [("y", repl)])])
    ∧ normalizeJson (.vObj [("x", .vArr [jn 1, jn 2, jn 3] [("y", repl)])]) = rootX123 := by
  refine ⟨rfl, ?_⟩
  simp [normalizeJson, normalizeElems, normalizeFields, rootX123, jn]

/-! ## Claim C2 -/

/-- C2: when a non-terminal integer segment finds a non-array container, the
`cur = []` coercion rebinds only the local cursor variable; the fresh array is
never linked into the returned root, so the install is lost: over the root
`{}` at path `[0, "a"]`, the returned root is `{}` unchanged (the claim and
the spec say it should be an array whose element 0 is `{"a": replacement}`). -/
theorem c2_coercion_lost (repl : JSValue) :
    setValueAtPath (.vObj []) [.idx 0, .key "a"] repl = some (.vObj []) := rfl

/-! ## Claim C7 -/

/-- C7: installing at `["a", 2, "b"]` into `{}` creates the missing
intermediate containers with kinds taken from the next segment (integer next
segment ⇒ array, string next segment ⇒ object): the result has an array at
`"a"`, an object at `["a", 2]`, and the replacement at `["a", 2, "b"]`. -/
theorem c7_creates_containers (repl : JSValue) :
    setValueAtPath (.vObj []) [.key "a", .idx 2, .key "b"] repl
      = some (.vObj [("a", .vArr [.vNull, .vNull, .vObj [("b", repl)]] [])])
    ∧ (∃ es ex, getPathStrict (.vObj [("a", .vArr [.vNull, .vNull, .vObj [("b", repl)]] [])])
        [.key "a"] = some (.vArr es ex))
    ∧ (∃ fs, getPathStrict (.vObj [("a", .vArr [.vNull, .vNull, .vObj [("b", repl)]] [])])
        [.key "a", .idx 2] = some (.vObj fs))
    ∧ getPathStrict (.vObj [("a", .vArr [.vNull, .vNull, .vObj [("b", repl)]] [])])
        [.key "a", .idx 2, .key "b"] = some repl := by
  refine ⟨rfl, ⟨_, _, rfl⟩, ⟨_, rfl⟩, ?_⟩
  rfl

/-! ## Claim C8 -/

/-- C8: `parsePrimitive` is total by type; it satisfies the exact coercion
table `"true"→true`, `"false"→false`, `"null"→null`, `""→""`, `"42"→42`,
`"3.14"→3.14`, `"007"→"007"`, `"abc"→"abc"`; a string is accepted as a number
only when re-rendering the parsed number reproduces the exact input; and
every other input stays a string. -/
theorem c8_scalar_coercion :
    (parsePrimitive "true" = .vBool true ∧ parsePrimitive "false" = .vBool false
      ∧ parsePrimitive "null" = .vNull ∧ parsePrimitive "" = .vStr ""
      ∧ parsePrimitive "42" = jn 42 ∧ parsePrimitive "3.14" = .vNum ⟨false, 314, 2⟩
      ∧ parsePrimitive "007" = .vStr "007" ∧ parsePrimitive "abc" = .vStr "abc")
    ∧ (∀ v n, parsePrimitive v = .vNum n → jsNumToString n = v)
    ∧ (∀ v, v ≠ "true" → v ≠ "false" → v ≠ "null" → v ≠ "" →
        (∀ n, jsNumberParse v = some n → jsNumToString n ≠ v) →
        parsePrimitive v = .vStr v) := by
  refine ⟨⟨rfl, rfl, rfl, rfl, rfl, rfl, rfl, rfl⟩, ?_, ?_⟩
  · intro v n h
    unfold parsePrimitive at h
    split_ifs at h
    rcases hp : jsNumberParse v with _ | m
    · rw [hp] at h
      exact absurd (show JSValue.vStr v = JSValue.vNum n from h) (by simp)
    · rw [hp] at h
      have hh : (if jsNumToString m = v then JSValue.vNum m else JSValue.vStr v)
          = JSValue.vNum n := h
      by_cases hr : jsNumToString m = v
      · rw [if_pos hr] at hh
        injection hh with hmn
        rw [← hmn]; exact hr
      · rw [if_neg hr] at hh
        exact absurd hh (by simp)
  · intro v h1 h2 h3 h4 hnum
    unfold parsePrimitive
    rw [if_neg h1, if_neg h2, if_neg h3, if_neg h4]
    rcases hp : jsNumberParse v with _ | m
    · rfl
    · show (if jsNumToString m = v then JSValue.vNum m else JSValue.vStr v) = JSValue.vStr v
      rw [if_neg (hnum m hp)]

/-- C8 witness: the generic fall-through clause at the concrete input
`"a1"`, whose numeric parse fails. -/
theorem c8_scalar_coercion_witness : parsePrimitive "a1" = .vStr "a1" := by
  apply c8_scalar_coercion.2.2 "a1" (by decide) (by decide) (by decide) (by decide)
  intro n h
  rw [show jsNumberParse "a1" = none by decide] at h
  exact Option.noConfusion h

/-! ## Claim C5 -/

/-- C5: a save attempt (with a node selected — with none, `handleSave`
returns before reaching the parse) whose document text is not valid JSON is
aborted: `setJson` is never called so the document store is untouched, the
form is discarded anyway, and the session returns to Viewing. -/
theorem c5_parse_failure_aborts (s : Session) (node : NodeData)
    (hsel : s.selection = some node) (hdoc : s.doc = .invalidText) :
    (handleSave s).doc = s.doc ∧ (handleSave s).isEditing = false
      ∧ (handleSave s).form = [] := by
  simp [handleSave, hsel, hdoc]

/-- C5 witness: a concrete editing session over invalid document text. -/
theorem c5_parse_failure_aborts_witness :
    (handleSave sessionInvalid).doc = sessionInvalid.doc
      ∧ (handleSave sessionInvalid).isEditing = false
      ∧ (handleSave sessionInvalid).form = [] :=
  c5_parse_failure_aborts sessionInvalid nodeRootA rfl rfl

/-! ## Claim C6 -/

/-- C6: the mutator returns the replacement directly for the empty path,
ignoring the root; and a save of a node with an empty path (whose document
text parses) writes the serialized replacement itself as the new full
document. -/
theorem c6_root_replacement :
    (∀ (root repl : JSValue), setValueAtPath root [] repl = some repl)
    ∧ (∀ (s : Session) (node : NodeData), s.selection = some node → node.path = [] →
        s.doc ≠ .invalidText →
        (handleSave s).doc
          = .validText (normalizeJson (replacementOf node s.form (newRowsOf node s.form)))) := by
  refine ⟨fun root repl => rfl, fun s node hsel hpath hdoc => ?_⟩
  cases hd : s.doc with
  | invalidText => exact absurd hd hdoc
  | emptyText => simp [handleSave, hsel, hd, hpath, setValueAtPath]
  | validText v => simp [handleSave, hsel, hd, hpath, setValueAtPath]

/-- C6 witness: saving the single-row node `{"a": 1}` with empty path over
the document `{"z": null}` replaces the whole document with `{"a": 1}`. -/
theorem c6_root_replacement_witness :
    setValueAtPath (.vObj [("z", .vNull)]) [] (jn 7) = some (jn 7)
    ∧ (handleSave ⟨true, [("a", "1")], some nodeRootA, .validText (.vObj [("z", .vNull)])⟩).doc
        = .validText (normalizeJson
            (replacementOf nodeRootA [("a", "1")] (newRowsOf nodeRootA [("a", "1")]))) :=
  ⟨c6_root_replacement.1 _ _,
   c6_root_replacement.2 ⟨true, [("a", "1")], some nodeRootA, .validText (.vObj [("z", .vNull)])⟩
     nodeRootA rfl rfl (by simp)⟩

/-! ## Claim C10 -/

/-- C10: on every save of a selected node the selection store receives the
new rows — this happens before the try-guarded parse, so it is outside the
error-handled region — and there is a save on invalid document text after
which the selection store holds the edited rows while the document store is
unchanged: the stores diverge. -/
theorem c10_selection_update_outside_try :
    (∀ (s : Session) (node : NodeData), s.selection = some node →
      (handleSave s).selection = some { node with text := newRowsOf node s.form })
    ∧ (∃ s : Session, ∃ node : NodeData, s.selection = some node ∧ s.doc = .invalidText
        ∧ (handleSave s).doc = s.doc
        ∧ (handleSave s).selection ≠ s.selection
        ∧ (handleSave s).selection = some { node with text := newRowsOf node s.form }) := by
  constructor
  · intro s node hsel
    simp [handleSave, hsel]
  · refine ⟨sessionInvalid, nodeRootA, rfl, rfl, rfl, ?_, rfl⟩
    rw [show (handleSave sessionInvalid).selection
        = some ⟨[⟨some "a", .vStr "2", "number"⟩], []⟩ from rfl]
    simp [sessionInvalid, nodeRootA, jn]

/-- C10 witness: the universal part applied to the concrete diverging save. -/
theorem c10_selection_update_outside_try_witness :
    (handleSave sessionInvalid).selection
      = some { nodeRootA with text := newRowsOf nodeRootA sessionInvalid.form } :=
  c10_selection_update_outside_try.1 sessionInvalid nodeRootA rfl

/-! ## Claim C9 -/

/-- C9 counterexample: a node with two scalar rows, one keyed by the empty
string — the empty-string-keyed row is editable by the claim's criterion
(scalar type) but JS truthiness (`r.key`) drops it from the form, so the
form keys are not exactly the scalar-row keys, and the node is not a bare
scalar either. -/
theorem c9_counterexample :
    isBareEffect nodeEmptyKey = false
    ∧ (∃ r ∈ nodeEmptyKey.text, r.rtype ≠ "object" ∧ r.rtype ≠ "array" ∧ r.key = some "")
    ∧ ((initialForm nodeEmptyKey).lookup "").isSome = false := by
  refine ⟨rfl, ⟨⟨some "", jn 1, "number"⟩, by simp [nodeEmptyKey], by simp, by simp, rfl⟩, rfl⟩

/-- C9 amended: the form keys are exactly the keys of the scalar-typed rows
whose key is present and non-empty (JS-truthy) — an empty-string key is
excluded, not included — or the single empty-string key when the node's
single row has an absent or empty key. -/
theorem keyTruthy_none (r : FieldRow) (h : r.key = none) : keyTruthy r = false := by
  unfold keyTruthy; rw [h]

theorem keyStr_some (r : FieldRow) (k0 : String) (h : r.key = some k0) : keyStr r = k0 := by
  unfold keyStr; rw [h]; rfl

theorem editableRow_keyTruthy (r : FieldRow) (h : editableRow r = true) :
    keyTruthy r = true := by
  unfold editableRow at h
  simp only [Bool.and_eq_true] at h
  exact h.2

theorem c9_form_keys (node : NodeData) (k : String) :
    (((initialForm node).lookup k).isSome = true)
      ↔ ((isBareEffect node = true ∧ k = "")
          ∨ (isBareEffect node = false
              ∧ ∃ r ∈ node.text, editableRow r = true ∧ r.key = some k)) := by
  by_cases hb : isBareEffect node
  · obtain ⟨r, hnt, ht⟩ : ∃ r, node.text = [r] ∧ keyTruthy r = false := by
      unfold isBareEffect isBareRows at hb
      rcases hnt : node.text with _ | ⟨r, t⟩
      · rw [hnt] at hb; exact absurd hb (by simp)
      · rcases t with _ | ⟨r2, t2⟩
        · rw [hnt] at hb
          exact ⟨r, rfl, by simpa using hb⟩
        · rw [hnt] at hb; exact absurd hb (by simp)
    have hform : initialForm node = [("", displayText r.value)] := by
      unfold initialForm
      rw [hnt]
      show (if keyTruthy r = true then formFold [r] else [("", displayText r.value)])
          = [("", displayText r.value)]
      rw [ht]
      simp
    rw [hform, lookup_cons, hb, hnt]
    by_cases hk : k = ""
    · simp [hk]
    · simp [hk, List.lookup]
  · have hbf : isBareEffect node = false := by simpa using hb
    have hform : initialForm node = formFold node.text := by
      unfold initialForm
      rcases hnt : node.text with _ | ⟨r, t⟩
      · rfl
      · rcases t with _ | ⟨r2, t2⟩
        · have ht : keyTruthy r = true := by
            have hb2 : isBareRows node.text = false := by
              unfold isBareEffect at hbf; exact hbf
            rw [hnt] at hb2
            have hb3 : (!keyTruthy r) = false := hb2
            simpa using hb3
          show (if keyTruthy r = true then formFold [r] else [("", displayText r.value)])
              = formFold [r]
          rw [ht]
          simp
        · rfl
    rw [hform]
    unfold formFold
    rw [lookup_formFold]
    simp only [hbf, List.lookup, Option.isSome_none, Bool.false_eq_true, false_or, false_and,
      or_false, true_and, false_iff, eq_self_iff_true]
    constructor
    · rintro ⟨r, hr, he, hk⟩
      refine ⟨r, hr, he, ?_⟩
      have ht : keyTruthy r = true := editableRow_keyTruthy r he
      cases hko : r.key with
      | none => rw [keyTruthy_none r hko] at ht; exact absurd ht (by simp)
      | some k0 =>
        rw [keyStr_some r k0 hko] at hk
        rw [hk]
    · rintro ⟨r, hr, he, hk⟩
      exact ⟨r, hr, he, keyStr_some r k hk⟩

/-! ## Claim C3: helper lemmas -/

theorem upsert_lookup_self {α : Type} (l : List (String × α)) (k : String) (v : α)
    (h : l.lookup k = some v) : upsert l k v = l := by
  induction l with
  | nil => simp [List.lookup] at h
  | cons p t ih =>
    obtain ⟨k0, v0⟩ := p
    rw [lookup_cons] at h
    by_cases hk : k = k0
    · rw [if_pos hk] at h
      injection h with hv
      unfold upsert
      rw [if_pos hk.symm, hk, hv]
    · rw [if_neg hk] at h
      unfold upsert
      rw [if_neg (fun hh => hk hh.symm), ih h]

theorem upsert_lookup_none {α : Type} (l : List (String × α)) (k : String) (v : α)
    (h : l.lookup k = none) : upsert l k v = l ++ [(k, v)] := by
  induction l with
  | nil => rfl
  | cons p t ih =>
    obtain ⟨k0, v0⟩ := p
    rw [lookup_cons] at h
    by_cases hk : k = k0
    · rw [if_pos hk] at h; exact absurd h (by simp)
    · rw [if_neg hk] at h
      unfold upsert
      rw [if_neg (fun hh => hk hh.symm), ih h]
      rfl

theorem list_set_self {α : Type} : ∀ (l : List α) (n : Nat) (v : α),
    l.get? n = some v → l.set n v = l
  | [], n, v, h => by simp at h
  | a :: t, 0, v, h => by
    simp only [List.get?] at h
    injection h with hv
    rw [← hv]
    rfl
  | a :: t, n + 1, v, h => by
    simp only [List.get?] at h
    show a :: t.set n v = a :: t
    rw [list_set_self t n v h]

theorem setPad_self (es : List JSValue) (n : Nat) (v : JSValue)
    (h : es.get? n = some v) : setPad es n v = es := by
  have hn : n < es.length := by
    by_contra hc
    rw [List.get?_eq_none.mpr (Nat.le_of_not_lt hc)] at h
    exact Option.noConfusion h
  unfold setPad
  rw [if_pos hn, list_set_self es n v h]

/-- A value at which a strict non-empty path read succeeds is object-like. -/
theorem getPathStrict_objectLike (c : JSValue) (s : Seg) (rest : List Seg) (v : JSValue)
    (h : getPathStrict c (s :: rest) = some v) : c.isObjectLike = true := by
  cases c <;> cases s <;> first | rfl | (exfalso; exact Option.noConfusion h)

theorem isNullish_of_objectLike (c : JSValue) (h : c.isObjectLike = true) :
    c.isNullish = false := by
  cases c <;> first | rfl | exact Bool.noConfusion h

theorem getD_of_get?_eq {α : Type} (l : List α) (n : Nat) (c d : α)
    (h : l.get? n = some c) : l.getD n d = c := by
  rw [List.getD_eq_getElem?_getD, List.get?_eq_getElem?] at *
  rw [h]
  rfl

/-- Writing back the very value a strict path read returns leaves the walked
object unchanged: the cursor loop descends through existing containers
without modifying them and the final assignment stores an equal value. -/
theorem walkVal_getPath : ∀ (p : List Seg) (root v : JSValue),
    getPathStrict root p = some v → p ≠ [] → walkVal v root p = some root
  | [], _, _, _, hne => absurd rfl hne
  | [last], root, v, h, _ => by
    cases root with
    | vObj fs =>
      cases last with
      | key k =>
        rcases hlk : fs.lookup k with _ | c
        · unfold getPathStrict at h
          dsimp only at h
          rw [hlk] at h
          exact Option.noConfusion h
        · unfold getPathStrict at h
          dsimp only at h
          rw [hlk] at h
          have hcv : (some c : Option JSValue) = some v := h
          injection hcv with hcv
          subst hcv
          show writeLast (JSValue.vObj fs) (.key k) c = some (JSValue.vObj fs)
          unfold writeLast
          dsimp only [segToKey]
          rw [upsert_lookup_self fs k c hlk]
      | idx n => exact Option.noConfusion (show (none : Option JSValue) = some v from h)
    | vArr es ex =>
      cases last with
      | idx n =>
        rcases hg : es.get? n with _ | c
        · unfold getPathStrict at h
          dsimp only at h
          rw [hg] at h
          exact Option.noConfusion h
        · unfold getPathStrict at h
          dsimp only at h
          rw [hg] at h
          have hcv : (some c : Option JSValue) = some v := h
          injection hcv with hcv
          subst hcv
          show writeLast (JSValue.vArr es ex) (.idx n) c = some (JSValue.vArr es ex)
          unfold writeLast
          dsimp only
          rw [setPad_self es n c hg]
      | key k => exact Option.noConfusion (show (none : Option JSValue) = some v from h)
    | vNull => exact Option.noConfusion (show (none : Option JSValue) = some v from h)
    | vBool b => exact Option.noConfusion (show (none : Option JSValue) = some v from h)
    | vNum m => exact Option.noConfusion (show (none : Option JSValue) = some v from h)
    | vStr t => exact Option.noConfusion (show (none : Option JSValue) = some v from h)
  | s :: s2 :: rest, root, v, h, _ => by
    cases root with
    | vObj fs =>
      cases s with
      | key k =>
        rcases hlk : fs.lookup k with _ | c
        · unfold getPathStrict at h
          dsimp only at h
          rw [hlk] at h
          exact Option.noConfusion h
        · unfold getPathStrict at h
          dsimp only at h
          rw [hlk] at h
          have hrec : getPathStrict c (s2 :: rest) = some v := h
          have hobj := getPathStrict_objectLike c s2 rest v hrec
          have hih := walkVal_getPath (s2 :: rest) c v hrec (by simp)
          show (if ((fs.lookup k).getD JSValue.vNull).isObjectLike
              then (walkVal v ((fs.lookup k).getD JSValue.vNull) (s2 :: rest)).map
                (fun c2 => JSValue.vObj (upsert fs k c2))
              else (walkVal v (freshFor s2) (s2 :: rest)).map
                (fun c2 => JSValue.vObj (upsert fs k c2)))
            = some (JSValue.vObj fs)
          rw [hlk]
          simp only [Option.getD_some]
          rw [hobj]
          simp only [if_true]
          rw [hih]
          simp only [Option.map_some']
          rw [upsert_lookup_self fs k c hlk]
      | idx n => exact Option.noConfusion (show (none : Option JSValue) = some v from h)
    | vArr es ex =>
      cases s with
      | idx n =>
        rcases hg : es.get? n with _ | c
        · unfold getPathStrict at h
          dsimp only at h
          rw [hg] at h
          exact Option.noConfusion h
        · unfold getPathStrict at h
          dsimp only at h
          rw [hg] at h
          have hrec : getPathStrict c (s2 :: rest) = some v := h
          have hobj := getPathStrict_objectLike c s2 rest v hrec
          have hih := walkVal_getPath (s2 :: rest) c v hrec (by simp)
          show (if (getElem0 es n).isNullish
              then (walkVal v (freshFor s2) (s2 :: rest)).map
                (fun c2 => JSValue.vArr (setPad es n c2) ex)
              else (walkVal v (getElem0 es n) (s2 :: rest)).map
                (fun c2 => JSValue.vArr (setPad es n c2) ex))
            = some (JSValue.vArr es ex)
          have hge : getElem0 es n = c := getD_of_get?_eq es n c JSValue.vNull hg
          rw [hge, isNullish_of_objectLike c hobj]
          simp only [Bool.false_eq_true, if_false]
          rw [hih]
          simp only [Option.map_some']
          rw [setPad_self es n c hg]
      | key k => exact Option.noConfusion (show (none : Option JSValue) = some v from h)
    | vNull => exact Option.noConfusion (show (none : Option JSValue) = some v from h)
    | vBool b => exact Option.noConfusion (show (none : Option JSValue) = some v from h)
    | vNum m => exact Option.noConfusion (show (none : Option JSValue) = some v from h)
    | vStr t => exact Option.noConfusion (show (none : Option JSValue) = some v from h)
termination_by p _ _ _ _ => p.length

theorem foldl_upsert_eq_append {α β : Type} (f : α → String) (g : α → β) :
    ∀ (l : List α) (acc : List (String × β)),
      (∀ x ∈ l, acc.lookup (f x) = none) → ((l.map f).Nodup) →
      l.foldl (fun a x => upsert a (f x) (g x)) acc = acc ++ l.map (fun x => (f x, g x))
  | [], acc, _, _ => by simp
  | x :: t, acc, hnone, hnd => by
    simp only [List.foldl_cons, List.map_cons]
    have hx : acc.lookup (f x) = none := hnone x (List.mem_cons_self x t)
    have hnd2 : (t.map f).Nodup := by
      simp only [List.map_cons, List.nodup_cons] at hnd
      exact hnd.2
    rw [foldl_upsert_eq_append f g t (upsert acc (f x) (g x)) ?_ hnd2]
    · rw [upsert_lookup_none acc (f x) (g x) hx]
      simp
    · intro y hy
      rw [lookup_upsert]
      have hne : f y ≠ f x := by
        simp only [List.map_cons, List.nodup_cons] at hnd
        intro he
        exact hnd.1 (he ▸ List.mem_map_of_mem f hy)
      rw [if_neg hne]
      exact hnone y (List.mem_cons_of_mem x hy)

theorem formFold_if_all : ∀ (rows : List FieldRow) (acc : EditForm),
    (∀ r ∈ rows, editableRow r = true) →
    rows.foldl
      (fun a r => if editableRow r then upsert a (keyStr r) (displayText r.value) else a) acc
      = rows.foldl (fun a r => upsert a (keyStr r) (displayText r.value)) acc
  | [], _, _ => rfl
  | r :: t, acc, hall => by
    rw [List.foldl_cons, List.foldl_cons, if_pos (hall r (List.mem_cons_self r t))]
    exact formFold_if_all t _ (fun x hx => hall x (List.mem_cons_of_mem r hx))

theorem formFold_eq_map (rows : List FieldRow)
    (hall : ∀ r ∈ rows, editableRow r = true) (hnd : (rows.map keyStr).Nodup) :
    formFold rows = rows.map (fun r => (keyStr r, displayText r.value)) := by
  unfold formFold
  rw [formFold_if_all rows [] hall]
  rw [foldl_upsert_eq_append keyStr (fun r => displayText r.value) rows []
    (fun x _ => rfl) hnd]
  simp

theorem isBareRows_false (rows : List FieldRow)
    (hall : ∀ r ∈ rows, editableRow r = true) : isBareRows rows = false := by
  cases rows with
  | nil => rfl
  | cons r t =>
    cases t with
    | cons r2 t2 => rfl
    | nil =>
      show (!keyTruthy r) = false
      rw [editableRow_keyTruthy r (hall r (List.mem_singleton_self r))]
      rfl

theorem isBareSaveRows_false (rows : List FieldRow)
    (hall : ∀ r ∈ rows, editableRow r = true) : isBareSaveRows rows = false := by
  cases rows with
  | nil => rfl
  | cons r t =>
    cases t with
    | cons r2 t2 => rfl
    | nil =>
      show r.key.isNone = false
      have ht := editableRow_keyTruthy r (hall r (List.mem_singleton_self r))
      cases hko : r.key with
      | none => rw [keyTruthy_none r hko] at ht; exact Bool.noConfusion ht
      | some k0 => rfl

theorem initialForm_nonbare (node : NodeData) (h : isBareRows node.text = false) :
    initialForm node = formFold node.text := by
  unfold initialForm
  rcases hnt : node.text with _ | ⟨r, t⟩
  · rfl
  · rcases t with _ | ⟨r2, t2⟩
    · rw [hnt] at h
      have ht : keyTruthy r = true := by
        have h3 : (!keyTruthy r) = false := h
        simpa using h3
      show (if keyTruthy r = true then formFold [r] else [("", displayText r.value)])
          = formFold [r]
      rw [ht]
      simp
    · rfl

theorem replacementOf_noop (node : NodeData)
    (hall : ∀ r ∈ node.text, editableRow r = true)
    (hnd : (node.text.map keyStr).Nodup) :
    replacementOf node (initialForm node) (newRowsOf node (initialForm node))
      = .vObj (node.text.map (fun r => (keyStr r, parsePrimitive (displayText r.value)))) := by
  unfold replacementOf
  rw [show isBareSave node = false from isBareSaveRows_false node.text hall]
  simp only [Bool.false_eq_true, if_false]
  rw [initialForm_nonbare node (isBareRows_false node.text hall)]
  rw [formFold_eq_map node.text hall hnd]
  rw [foldl_upsert_eq_append Prod.fst (fun p => parsePrimitive p.2)
    (node.text.map (fun r => (keyStr r, displayText r.value))) []
    (fun x _ => rfl) (by simpa [List.map_map, Function.comp] using hnd)]
  simp [List.map_map, Function.comp]

/-- Evaluation of `handleSave`'s document-store effect when the text parses. -/
theorem handleSave_doc_valid (s : Session) (node : NodeData) (root : JSValue)
    (hsel : s.selection = some node) (hdoc : s.doc = .validText root) :
    (handleSave s).doc
      = (match setValueAtPath (normalizeJson root) node.path
            (replacementOf node s.form (newRowsOf node s.form)) with
         | none => s.doc
         | some finalv =>
             .validText (normalizeJson (if node.path ≠ [] then finalv
               else replacementOf node s.form (newRowsOf node s.form)))) := by
  simp only [handleSave, hsel, hdoc]

/-! ## Claim C3 -/

/-- C3 counterexample: a bare-scalar node whose value is the *string*
`"true"` over the document `{"a": "true"}`; the form is exactly the
freshly-populated one (its value matches the row's displayed value), the
document's value at the node's path agrees with the row, and yet the save
rewrites the document to `{"a": true}` — `parsePrimitive` coerces the
unchanged text `"true"` to the boolean — so the stored text no longer parses
to the same value. -/
theorem c3_counterexample :
    sessionStrTrue.form = initialForm nodeStrTrue
    ∧ sessionStrTrue.form = [("", displayText (.vStr "true"))]
    ∧ sessionStrTrue.doc = .validText (.vObj [("a", .vStr "true")])
    ∧ getPathStrict (.vObj [("a", .vStr "true")]) nodeStrTrue.path = some (.vStr "true")
    ∧ (handleSave sessionStrTrue).doc = .validText (.vObj [("a", .vBool true)])
    ∧ (handleSave sessionStrTrue).doc ≠ sessionStrTrue.doc := by
  refine ⟨rfl, rfl, rfl, rfl, ?_, ?_⟩
  · rw [handleSave_doc_valid sessionStrTrue nodeStrTrue (.vObj [("a", .vStr "true")]) rfl rfl]
    rw [show normalizeJson (.vObj [("a", .vStr "true")]) = .vObj [("a", .vStr "true")] from by
      simp [normalizeJson, normalizeFields]]
    rw [show replacementOf nodeStrTrue sessionStrTrue.form
          (newRowsOf nodeStrTrue sessionStrTrue.form) = .vBool true from rfl]
    rw [show setValueAtPath (.vObj [("a", .vStr "true")]) nodeStrTrue.path (.vBool true)
          = some (.vObj [("a", .vBool true)]) from rfl]
    simp [nodeStrTrue, normalizeJson, normalizeFields]
  · rw [handleSave_doc_valid sessionStrTrue nodeStrTrue (.vObj [("a", .vStr "true")]) rfl rfl]
    rw [show normalizeJson (.vObj [("a", .vStr "true")]) = .vObj [("a", .vStr "true")] from by
      simp [normalizeJson, normalizeFields]]
    rw [show replacementOf nodeStrTrue sessionStrTrue.form
          (newRowsOf nodeStrTrue sessionStrTrue.form) = .vBool true from rfl]
    rw [show setValueAtPath (.vObj [("a", .vStr "true")]) nodeStrTrue.path (.vBool true)
          = some (.vObj [("a", .vBool true)]) from rfl]
    simp [nodeStrTrue, sessionStrTrue, normalizeJson, normalizeFields]

/-- C3 amended: a no-op save (form exactly as populated) leaves the document
semantically unchanged *provided* every row of the node is scalar-typed with
a present, non-empty key, the keys are distinct, each row's displayed text
re-parses (via the primitive coercion) to exactly the row's stored value, and
the document's value at the node's path is exactly the flat object of the
rows.  (The counterexample shows the claim fails without the coercion
condition; a node with object/array-typed children similarly fails the
value-agreement condition, because the rebuilt replacement omits them.) -/
theorem c3_noop_save (s : Session) (node : NodeData) (root : JSValue)
    (hsel : s.selection = some node) (hdoc : s.doc = .validText root)
    (hform : s.form = initialForm node)
    (hall : ∀ r ∈ node.text, editableRow r = true)
    (hnd : (node.text.map keyStr).Nodup)
    (hfix : ∀ r ∈ node.text, parsePrimitive (displayText r.value) = r.value)
    (hval : getPathStrict root node.path
        = some (.vObj (node.text.map (fun r => (keyStr r, r.value)))))
    (hnorm : normalizeJson root = root) :
    (handleSave s).doc = s.doc := by
  have hrepl : replacementOf node s.form (newRowsOf node s.form)
      = .vObj (node.text.map (fun r => (keyStr r, r.value))) := by
    rw [hform, replacementOf_noop node hall hnd]
    exact congrArg JSValue.vObj
      (List.map_congr_left (fun r hr => by rw [hfix r hr]))
  rw [handleSave_doc_valid s node root hsel hdoc, hrepl, hnorm]
  rcases hp : node.path with _ | ⟨s0, p⟩
  · rw [hp] at hval
    have hroot : root = .vObj (node.text.map fun r => (keyStr r, r.value)) := by
      have h2 : (some root : Option JSValue)
          = some (.vObj (node.text.map fun r => (keyStr r, r.value))) := hval
      injection h2
    show (match (some (.vObj (node.text.map fun r => (keyStr r, r.value))) : Option JSValue) with
          | none => s.doc
          | some finalv =>
              JsonDoc.validText (normalizeJson (if ([] : List Seg) ≠ [] then finalv
                else .vObj (node.text.map fun r => (keyStr r, r.value)))))
        = s.doc
    simp only [ne_eq, not_true_eq_false, if_false, ite_false]
    rw [← hroot, hnorm, hdoc]
  · rw [hp] at hval
    have hw : walkVal (.vObj (node.text.map fun r => (keyStr r, r.value))) root (s0 :: p)
        = some root :=
      walkVal_getPath (s0 :: p) root (.vObj (node.text.map fun r => (keyStr r, r.value)))
        hval (by simp)
    show (match walkVal (.vObj (node.text.map fun r => (keyStr r, r.value))) root (s0 :: p) with
          | none => s.doc
          | some finalv =>
              JsonDoc.validText (normalizeJson (if (s0 :: p : List Seg) ≠ [] then finalv
                else .vObj (node.text.map fun r => (keyStr r, r.value)))))
        = s.doc
    rw [hw]
    simp only [ne_eq, reduceCtorEq, not_false_eq_true, if_true, ite_true]
    rw [hnorm, hdoc]

/-- C3 witness: the amended no-op save at a concrete instance — node
`{"a": 1}` at path `["x"]` over the document `{"x": {"a": 1}}`. -/
theorem c3_noop_save_witness : (handleSave sessionNoop).doc = sessionNoop.doc := by
  apply c3_noop_save sessionNoop nodeXA (.vObj [("x", .vObj [("a", jn 1)])]) rfl rfl rfl
  · intro r hr
    rw [show nodeXA.text = [⟨some "a", jn 1, "number"⟩] from rfl, List.mem_singleton] at hr
    subst hr
    rfl
  · simp [nodeXA, keyStr]
  · intro r hr
    rw [show nodeXA.text = [⟨some "a", jn 1, "number"⟩] from rfl, List.mem_singleton] at hr
    subst hr
    rfl
  · rfl
  · simp [normalizeJson, normalizeFields, normalizeElems, jn]

/-! ## Claim C4: heap lemmas -/

theorem lookup_cons_nat {α : Type} (k k0 : Nat) (v0 : α) (t : List (Nat × α)) :
    List.lookup k ((k0, v0) :: t) = if k = k0 then some v0 else List.lookup k t := by
  by_cases h : k = k0
  · subst h; simp [List.lookup]
  · have hb : (k == k0) = false := beq_eq_false_iff_ne.mpr h
    simp [List.lookup, hb, h]

theorem lookup_skip {α : Type} : ∀ (pre l : List (Nat × α)) (q : Nat),
    (∀ p ∈ pre, p.1 ≠ q) → List.lookup q (pre ++ l) = List.lookup q l
  | [], _, _, _ => rfl
  | (k0, v0) :: t, l, q, hq => by
    rw [List.cons_append, lookup_cons_nat,
      if_neg (fun he => hq (k0, v0) (List.mem_cons_self _ _) he.symm)]
    exact lookup_skip t l q (fun p hp => hq p (List.mem_cons_of_mem _ hp))

theorem lookup_append_cases {α : Type} : ∀ (pre l : List (Nat × α)) (q : Nat) (c : α),
    List.lookup q (pre ++ l) = some c → (q, c) ∈ pre ∨ List.lookup q l = some c
  | [], _, _, _, h => Or.inr h
  | (k0, v0) :: t, l, q, c, h => by
    rw [List.cons_append, lookup_cons_nat] at h
    by_cases he : q = k0
    · rw [if_pos he] at h
      injection h with hv
      exact Or.inl (by rw [he, hv]; exact List.mem_cons_self _ _)
    · rw [if_neg he] at h
      rcases lookup_append_cases t l q c h with h2 | h2
      · exact Or.inl (List.mem_cons_of_mem _ h2)
      · exact Or.inr h2

theorem lookup_some_mem {α : Type} : ∀ (l : List (Nat × α)) (q : Nat) (c : α),
    List.lookup q l = some c → (q, c) ∈ l
  | [], _, _, h => by simp [List.lookup] at h
  | (k0, v0) :: t, q, c, h => by
    rw [lookup_cons_nat] at h
    by_cases he : q = k0
    · rw [if_pos he] at h
      injection h with hv
      rw [he, hv]
      exact List.mem_cons_self _ _
    · rw [if_neg he] at h
      exact List.mem_cons_of_mem _ (lookup_some_mem t q c h)

theorem lookup_strkey_mem {α : Type} : ∀ (l : List (String × α)) (k : String) (c : α),
    List.lookup k l = some c → c ∈ l.map Prod.snd
  | [], _, _, h => by simp [List.lookup] at h
  | (k0, v0) :: t, k, c, h => by
    rw [lookup_cons] at h
    by_cases he : k = k0
    · rw [if_pos he] at h
      injection h with hv
      rw [hv]
      exact List.mem_cons_self _ _
    · rw [if_neg he] at h
      exact List.mem_cons_of_mem _ (lookup_strkey_mem t k c h)

theorem lookup_update_self (h : Heap) (r : Nat) (c : Cell) :
    (h.update r c).lookup r = some c := by
  unfold Heap.update Heap.lookup
  rw [lookup_cons_nat, if_pos rfl]

theorem lookup_update_ne (h : Heap) (r q : Nat) (c : Cell) (hne : q ≠ r) :
    (h.update r c).lookup q = h.lookup q := by
  unfold Heap.update Heap.lookup
  rw [lookup_cons_nat, if_neg hne]

theorem lookup_alloc_ne (h : Heap) (c : Cell) (q : Nat) (hne : q ≠ h.next) :
    (h.alloc c).1.lookup q = h.lookup q := by
  unfold Heap.alloc Heap.lookup
  rw [lookup_cons_nat, if_neg hne]

theorem upsert_snd_mem {α : Type} : ∀ (l : List (String × α)) (k : String) (v x : α),
    x ∈ (upsert l k v).map Prod.snd → x ∈ l.map Prod.snd ∨ x = v
  | [], k, v, x, h => by
    rcases List.mem_cons.mp h with h | h
    · exact Or.inr h
    · simp at h
  | (k0, v0) :: t, k, v, x, h => by
    unfold upsert at h
    by_cases hk : k0 = k
    · rw [if_pos hk] at h
      rcases List.mem_cons.mp h with h | h
      · exact Or.inr h
      · exact Or.inl (List.mem_cons_of_mem _ h)
    · rw [if_neg hk] at h
      rcases List.mem_cons.mp h with h | h
      · exact Or.inl (h ▸ List.mem_cons_self _ _)
      · rcases upsert_snd_mem t k v x h with h2 | h2
        · exact Or.inl (List.mem_cons_of_mem _ h2)
        · exact Or.inr h2

theorem mem_set_cases {α : Type} : ∀ (l : List α) (n : Nat) (b x : α),
    x ∈ l.set n b → x ∈ l ∨ x = b
  | [], _, _, _, h => Or.inl h
  | a :: t, 0, b, x, h => by
    rcases List.mem_cons.mp h with h | h
    · exact Or.inr h
    · exact Or.inl (List.mem_cons_of_mem _ h)
  | a :: t, n + 1, b, x, h => by
    rcases List.mem_cons.mp h with h | h
    · exact Or.inl (h ▸ List.mem_cons_self _ _)
    · rcases mem_set_cases t n b x h with h2 | h2
      · exact Or.inl (List.mem_cons_of_mem _ h2)
      · exact Or.inr h2

theorem setPadRef_refs (es : List (Option Nat)) (n r x : Nat)
    (h : some x ∈ setPadRef es n r) : some x ∈ es ∨ x = r := by
  unfold setPadRef at h
  by_cases hn : n < es.length
  · rw [if_pos hn] at h
    rcases mem_set_cases es n (some r) (some x) h with h2 | h2
    · exact Or.inl h2
    · injection h2 with h2
      exact Or.inr h2
  · rw [if_neg hn] at h
    rcases List.mem_append.mp h with h2 | h2
    · rcases List.mem_append.mp h2 with h3 | h3
      · exact Or.inl h3
      · have := List.eq_of_mem_replicate h3
        exact absurd this (by simp)
    · rw [List.mem_singleton] at h2
      injection h2 with h2
      exact Or.inr h2

theorem reduceOption_map_some (l : List Nat) : (l.map some).reduceOption = l := by
  induction l with
  | nil => rfl
  | cons a t ih => simp [List.reduceOption_cons_of_some, ih]

theorem goodExt_refl (h : Heap) : GoodExt h h :=
  ⟨Nat.le_refl _, [], rfl, by intro p hp; simp at hp⟩

theorem goodExt_trans {h1 h2 h3 : Heap} (a : GoodExt h1 h2) (b : GoodExt h2 h3) :
    GoodExt h1 h3 := by
  obtain ⟨hn1, pre1, he1, hb1⟩ := a
  obtain ⟨hn2, pre2, he2, hb2⟩ := b
  refine ⟨Nat.le_trans hn1 hn2, pre2 ++ pre1, by rw [he2, he1, List.append_assoc], ?_⟩
  intro p hp
  rcases List.mem_append.mp hp with hp | hp
  · obtain ⟨⟨ha, hb⟩, hr⟩ := hb2 p hp
    exact ⟨⟨Nat.le_trans hn1 ha, hb⟩,
      fun x hx => ⟨Nat.le_trans hn1 (hr x hx).1, (hr x hx).2⟩⟩
  · obtain ⟨⟨ha, hb⟩, hr⟩ := hb1 p hp
    exact ⟨⟨ha, Nat.lt_of_lt_of_le hb hn2⟩,
      fun x hx => ⟨(hr x hx).1, Nat.lt_of_lt_of_le (hr x hx).2 hn2⟩⟩

theorem goodExt_alloc {h h2 : Heap} (a : GoodExt h h2) (c : Cell)
    (hc : ∀ x ∈ cellRefs c, h.next ≤ x ∧ x < h2.next) :
    GoodExt h (h2.alloc c).1 := by
  obtain ⟨hn, pre, he, hb⟩ := a
  have hnext : (h2.alloc c).1.next = h2.next + 1 := rfl
  refine ⟨by omega, (h2.next, c) :: pre, ?_, ?_⟩
  · show (h2.next, c) :: h2.cells = _
    rw [he]
    rfl
  · intro p hp
    rcases List.mem_cons.mp hp with hp | hp
    · subst hp
      exact ⟨⟨hn, by omega⟩, fun x hx => ⟨(hc x hx).1, by have := (hc x hx).2; omega⟩⟩
    · obtain ⟨⟨ha, hb2⟩, hr⟩ := hb p hp
      exact ⟨⟨ha, by omega⟩, fun x hx => ⟨(hr x hx).1, by have := (hr x hx).2; omega⟩⟩

theorem goodExt_lowAgree {h h2 : Heap} (a : GoodExt h h2) (q : Nat) (hq : q < h.next) :
    h2.lookup q = h.lookup q := by
  obtain ⟨hn, pre, he, hb⟩ := a
  show h2.cells.lookup q = h.cells.lookup q
  rw [he]
  exact lookup_skip pre h.cells q (fun p hp => by have := (hb p hp).1.1; omega)

theorem goodExt_highClosed {h h2 : Heap} (a : GoodExt h h2) (hwf : Heap.WF h) :
    HighClosed h.next h2 := by
  obtain ⟨hn, pre, he, hb⟩ := a
  intro q c hlk hq x hx
  rw [show h2.lookup q = h2.cells.lookup q from rfl, he] at hlk
  rcases lookup_append_cases pre h.cells q c hlk with hm | hm
  · exact ((hb (q, c) hm).2 x hx).1
  · have := hwf (q, c) (lookup_some_mem h.cells q c hm)
    omega

mutual

theorem allocValue_bounds : ∀ (h : Heap) (v : JSValue),
    GoodExt h (allocValue h v).1
    ∧ h.next ≤ (allocValue h v).2 ∧ (allocValue h v).2 < (allocValue h v).1.next
  | h, .vNull => by
    simp only [allocValue]
    exact ⟨goodExt_alloc (goodExt_refl h) _ (by intro x hx; simp [cellRefs] at hx),
      Nat.le_refl _, Nat.lt_succ_self _⟩
  | h, .vBool b => by
    simp only [allocValue]
    exact ⟨goodExt_alloc (goodExt_refl h) _ (by intro x hx; simp [cellRefs] at hx),
      Nat.le_refl _, Nat.lt_succ_self _⟩
  | h, .vNum n => by
    simp only [allocValue]
    exact ⟨goodExt_alloc (goodExt_refl h) _ (by intro x hx; simp [cellRefs] at hx),
      Nat.le_refl _, Nat.lt_succ_self _⟩
  | h, .vStr t => by
    simp only [allocValue]
    exact ⟨goodExt_alloc (goodExt_refl h) _ (by intro x hx; simp [cellRefs] at hx),
      Nat.le_refl _, Nat.lt_succ_self _⟩
  | h, .vObj fs => by
    obtain ⟨g1, b1⟩ := allocFieldList_bounds h fs
    simp only [allocValue]
    refine ⟨goodExt_alloc g1 _ ?_, g1.1, Nat.lt_succ_self _⟩
    intro x hx
    simp only [cellRefs] at hx
    exact b1 x hx
  | h, .vArr es ex => by
    obtain ⟨g1, b1⟩ := allocElemList_bounds h es
    obtain ⟨g2, b2⟩ := allocFieldList_bounds (allocElemList h es).1 ex
    simp only [allocValue]
    refine ⟨goodExt_alloc (goodExt_trans g1 g2) _ ?_,
      Nat.le_trans g1.1 g2.1, Nat.lt_succ_self _⟩
    intro x hx
    simp only [cellRefs] at hx
    rcases List.mem_append.mp hx with hx | hx
    · rw [reduceOption_map_some] at hx
      exact ⟨(b1 x hx).1, Nat.lt_of_lt_of_le (b1 x hx).2 g2.1⟩
    · exact ⟨Nat.le_trans g1.1 (b2 x hx).1, (b2 x hx).2⟩
termination_by _ v => sizeOf v

theorem allocElemList_bounds : ∀ (h : Heap) (l : List JSValue),
    GoodExt h (allocElemList h l).1
    ∧ ∀ x ∈ (allocElemList h l).2, h.next ≤ x ∧ x < (allocElemList h l).1.next
  | h, [] => by
    simp only [allocElemList]
    exact ⟨goodExt_refl h, fun x hx => absurd hx (List.not_mem_nil x)⟩
  | h, v :: t => by
    obtain ⟨g1, hle, hlt⟩ := allocValue_bounds h v
    obtain ⟨g2, b2⟩ := allocElemList_bounds (allocValue h v).1 t
    simp only [allocElemList]
    refine ⟨goodExt_trans g1 g2, ?_⟩
    intro x hx
    rcases List.mem_cons.mp hx with hx | hx
    · subst hx
      exact ⟨hle, Nat.lt_of_lt_of_le hlt g2.1⟩
    · exact ⟨Nat.le_trans g1.1 (b2 x hx).1, (b2 x hx).2⟩
termination_by _ l => sizeOf l

theorem allocFieldList_bounds : ∀ (h : Heap) (l : List (String × JSValue)),
    GoodExt h (allocFieldList h l).1
    ∧ ∀ x ∈ (allocFieldList h l).2.map Prod.snd,
        h.next ≤ x ∧ x < (allocFieldList h l).1.next
  | h, [] => by
    simp only [allocFieldList]
    exact ⟨goodExt_refl h, fun x hx => absurd hx (by simp)⟩
  | h, (k, v) :: t => by
    obtain ⟨g1, hle, hlt⟩ := allocValue_bounds h v
    obtain ⟨g2, b2⟩ := allocFieldList_bounds (allocValue h v).1 t
    simp only [allocFieldList]
    refine ⟨goodExt_trans g1 g2, ?_⟩
    intro x hx
    simp only [List.map_cons] at hx
    rcases List.mem_cons.mp hx with hx | hx
    · subst hx
      exact ⟨hle, Nat.lt_of_lt_of_le hlt g2.1⟩
    · exact ⟨Nat.le_trans g1.1 (b2 x hx).1, (b2 x hx).2⟩
termination_by _ l => sizeOf l

end

theorem getD_some_mem {α : Type} : ∀ (l : List α) (n : Nat) (d x : α),
    l.getD n d = x → x ≠ d → x ∈ l
  | [], _, d, x, h, hne => absurd h.symm hne
  | a :: t, 0, d, x, h, _ => by
    rw [List.getD_cons_zero] at h
    rw [← h]
    exact List.mem_cons_self _ _
  | a :: t, n + 1, d, x, h, hne => by
    rw [List.getD_cons_succ] at h
    exact List.mem_cons_of_mem _ (getD_some_mem t n d x h hne)

theorem lowAgree_refl (n : Nat) (h : Heap) : LowAgree n h h := fun _ _ => rfl

theorem lowAgree_trans {n : Nat} {h1 h2 h3 : Heap}
    (a : LowAgree n h1 h2) (b : LowAgree n h2 h3) : LowAgree n h1 h3 :=
  fun q hq => (b q hq).trans (a q hq)

theorem lowAgree_update {n : Nat} (h : Heap) (r : Nat) (c : Cell) (hr : n ≤ r) :
    LowAgree n h (h.update r c) :=
  fun q hq => lookup_update_ne h r q c (by omega)

theorem lowAgree_alloc {n : Nat} (h : Heap) (c : Cell) (hn : n ≤ h.next) :
    LowAgree n h (h.alloc c).1 :=
  fun q hq => lookup_alloc_ne h c q (by omega)

theorem highClosed_update {n : Nat} (h : Heap) (r : Nat) (c : Cell)
    (hh : HighClosed n h) (hc : ∀ x ∈ cellRefs c, n ≤ x) :
    HighClosed n (h.update r c) := by
  intro q c2 hlk hq x hx
  by_cases he : q = r
  · subst he
    rw [lookup_update_self] at hlk
    injection hlk with hc2
    subst hc2
    exact hc x hx
  · rw [lookup_update_ne h r q c he] at hlk
    exact hh q c2 hlk hq x hx

theorem highClosed_alloc {n : Nat} (h : Heap) (c : Cell)
    (hh : HighClosed n h) (hc : ∀ x ∈ cellRefs c, n ≤ x) :
    HighClosed n (h.alloc c).1 := by
  intro q c2 hlk hq x hx
  by_cases he : q = h.next
  · subst he
    rw [show (h.alloc c).1.lookup h.next = some c from by
      unfold Heap.alloc Heap.lookup
      rw [lookup_cons_nat, if_pos rfl]] at hlk
    injection hlk with hc2
    subst hc2
    exact hc x hx
  · rw [lookup_alloc_ne h c q he] at hlk
    exact hh q c2 hlk hq x hx

theorem cellRefs_freshFor (s : Seg) : cellRefs (freshCellFor s) = [] := by
  cases s <;> rfl

/-- Frame property of the cursor loop: walking from a cursor in the high
region of a heap whose high region is closed never touches a cell below `n`,
and only ever grows the allocation counter. -/
theorem walkHeap_frame (n repl : Nat) : ∀ (p : List Seg) (h : Heap) (cur : Nat),
    HighClosed n h → n ≤ h.next → n ≤ cur →
    LowAgree n h (walkHeap repl h cur p).1 ∧ n ≤ (walkHeap repl h cur p).1.next
  | [], h, cur, _, hnext, _ => ⟨lowAgree_refl n h, hnext⟩
  | [last], h, cur, hhc, hnext, hcur => by
    simp only [walkHeap]
    rcases hlc : h.lookup cur with _ | c
    · exact ⟨lowAgree_refl n h, hnext⟩
    · cases c with
      | cObj fs => exact ⟨lowAgree_update h cur _ hcur, hnext⟩
      | cArr es ex =>
        cases last with
        | idx n0 => exact ⟨lowAgree_update h cur _ hcur, hnext⟩
        | key k => exact ⟨lowAgree_update h cur _ hcur, hnext⟩
      | cNull => exact ⟨lowAgree_refl n h, hnext⟩
      | cBool b => exact ⟨lowAgree_refl n h, hnext⟩
      | cNum m => exact ⟨lowAgree_refl n h, hnext⟩
      | cStr t => exact ⟨lowAgree_refl n h, hnext⟩
  | seg :: next :: rest, h, cur, hhc, hnext, hcur => by
    simp only [walkHeap]
    cases seg with
    | idx n0 =>
      rcases hlc : h.lookup cur with _ | c
      · -- detach over a dangling ref
        have hfr := cellRefs_freshFor next
        have hg : HighClosed n (((h.alloc (.cArr [] [])).1.alloc
            (freshCellFor next)).1.update (h.alloc (.cArr [] [])).2
              (.cArr (setPadRef [] n0 ((h.alloc (.cArr [] [])).1.alloc
                (freshCellFor next)).2) [])) := by
          apply highClosed_update
          · apply highClosed_alloc
            · exact highClosed_alloc h _ hhc (by intro x hx; simp [cellRefs] at hx)
            · rw [hfr]; intro x hx; simp at hx
          · intro x hx
            simp only [cellRefs] at hx
            rcases List.mem_append.mp hx with hx | hx
            · rcases setPadRef_refs [] n0 _ x (List.reduceOption_mem_iff.mp hx) with hx2 | hx2
              · simp at hx2
              · subst hx2
                show n ≤ (h.alloc (.cArr [] [])).1.next
                have : (h.alloc (.cArr [] [])).1.next = h.next + 1 := rfl
                omega
            · simp at hx
        obtain ⟨ihl, ihn⟩ := walkHeap_frame n repl (next :: rest) _ _ hg
          (by show n ≤ (h.alloc (.cArr [] [])).1.next + 1; have : (h.alloc (.cArr [] [])).1.next = h.next + 1 := rfl; omega)
          (by show n ≤ (h.alloc (.cArr [] [])).1.next; have : (h.alloc (.cArr [] [])).1.next = h.next + 1 := rfl; omega)
        refine ⟨lowAgree_trans ?_ ihl, ihn⟩
        exact lowAgree_trans (lowAgree_alloc h _ (by omega))
          (lowAgree_trans (lowAgree_alloc _ _ (by have : (h.alloc (.cArr [] [])).1.next = h.next + 1 := rfl; omega))
            (lowAgree_update _ _ _ (by show n ≤ h.next; omega)))
      · cases c with
        | cArr es ex =>
          dsimp only
          by_cases hnul : heapElemNullish h es n0 = true
          · rw [if_pos hnul]
            have hg : HighClosed n ((h.alloc (freshCellFor next)).1.update cur
                (.cArr (setPadRef es n0 (h.alloc (freshCellFor next)).2) ex)) := by
              apply highClosed_update
              · apply highClosed_alloc h _ hhc
                rw [cellRefs_freshFor]
                intro x hx; simp at hx
              · intro x hx
                simp only [cellRefs] at hx
                rcases List.mem_append.mp hx with hx | hx
                · rcases setPadRef_refs es n0 _ x (List.reduceOption_mem_iff.mp hx) with hx2 | hx2
                  · exact hhc cur _ hlc hcur x (by
                      simp only [cellRefs]
                      exact List.mem_append.mpr (Or.inl (List.reduceOption_mem_iff.mpr hx2)))
                  · subst hx2; exact hnext
                · exact hhc cur _ hlc hcur x (by
                    simp only [cellRefs]
                    exact List.mem_append.mpr (Or.inr hx))
            obtain ⟨ihl, ihn⟩ := walkHeap_frame n repl (next :: rest) _ _ hg
              (by show n ≤ h.next + 1; omega) (by show n ≤ h.next; omega)
            refine ⟨lowAgree_trans ?_ ihl, ihn⟩
            exact lowAgree_trans (lowAgree_alloc h _ hnext) (lowAgree_update _ cur _ hcur)
          · rw [if_neg hnul]
            rcases hel : heapElemRef es n0 with _ | r
            · exact ⟨lowAgree_refl n h, hnext⟩
            · have hrn : n ≤ r := by
                apply hhc cur _ hlc hcur r
                simp only [cellRefs]
                apply List.mem_append.mpr (Or.inl _)
                apply List.reduceOption_mem_iff.mpr
                exact getD_some_mem es n0 none (some r) hel (by simp)
              exact walkHeap_frame n repl (next :: rest) h r hhc hnext hrn
        | cObj fs =>
          -- Array.isArray false: detach
          have hfr := cellRefs_freshFor next
          have hg : HighClosed n (((h.alloc (.cArr [] [])).1.alloc
              (freshCellFor next)).1.update (h.alloc (.cArr [] [])).2
                (.cArr (setPadRef [] n0 ((h.alloc (.cArr [] [])).1.alloc
                  (freshCellFor next)).2) [])) := by
            apply highClosed_update
            · apply highClosed_alloc
              · exact highClosed_alloc h _ hhc (by intro x hx; simp [cellRefs] at hx)
              · rw [hfr]; intro x hx; simp at hx
            · intro x hx
              simp only [cellRefs] at hx
              rcases List.mem_append.mp hx with hx | hx
              · rcases setPadRef_refs [] n0 _ x (List.reduceOption_mem_iff.mp hx) with hx2 | hx2
                · simp at hx2
                · subst hx2
                  show n ≤ (h.alloc (.cArr [] [])).1.next
                  have : (h.alloc (.cArr [] [])).1.next = h.next + 1 := rfl
                  omega
              · simp at hx
          obtain ⟨ihl, ihn⟩ := walkHeap_frame n repl (next :: rest) _ _ hg
            (by show n ≤ (h.alloc (.cArr [] [])).1.next + 1; have : (h.alloc (.cArr [] [])).1.next = h.next + 1 := rfl; omega)
            (by show n ≤ (h.alloc (.cArr [] [])).1.next; have : (h.alloc (.cArr [] [])).1.next = h.next + 1 := rfl; omega)
          refine ⟨lowAgree_trans ?_ ihl, ihn⟩
          exact lowAgree_trans (lowAgree_alloc h _ (by omega))
            (lowAgree_trans (lowAgree_alloc _ _ (by have : (h.alloc (.cArr [] [])).1.next = h.next + 1 := rfl; omega))
              (lowAgree_update _ _ _ (by show n ≤ h.next; omega)))
        | cNull =>
          have hfr := cellRefs_freshFor next
          have hg : HighClosed n (((h.alloc (.cArr [] [])).1.alloc
              (freshCellFor next)).1.update (h.alloc (.cArr [] [])).2
                (.cArr (setPadRef [] n0 ((h.alloc (.cArr [] [])).1.alloc
                  (freshCellFor next)).2) [])) := by
            apply highClosed_update
            · apply highClosed_alloc
              · exact highClosed_alloc h _ hhc (by intro x hx; simp [cellRefs] at hx)
              · rw [hfr]; intro x hx; simp at hx
            · intro x hx
              simp only [cellRefs] at hx
              rcases List.mem_append.mp hx with hx | hx
              · rcases setPadRef_refs [] n0 _ x (List.reduceOption_mem_iff.mp hx) with hx2 | hx2
                · simp at hx2
                · subst hx2
                  show n ≤ (h.alloc (.cArr [] [])).1.next
                  have : (h.alloc (.cArr [] [])).1.next = h.next + 1 := rfl
                  omega
              · simp at hx
          obtain ⟨ihl, ihn⟩ := walkHeap_frame n repl (next :: rest) _ _ hg
            (by show n ≤ (h.alloc (.cArr [] [])).1.next + 1; have : (h.alloc (.cArr [] [])).1.next = h.next + 1 := rfl; omega)
            (by show n ≤ (h.alloc (.cArr [] [])).1.next; have : (h.alloc (.cArr [] [])).1.next = h.next + 1 := rfl; omega)
          refine ⟨lowAgree_trans ?_ ihl, ihn⟩
          exact lowAgree_trans (lowAgree_alloc h _ (by omega))
            (lowAgree_trans (lowAgree_alloc _ _ (by have : (h.alloc (.cArr [] [])).1.next = h.next + 1 := rfl; omega))
              (lowAgree_update _ _ _ (by show n ≤ h.next; omega)))
        | cBool b =>
          have hfr := cellRefs_freshFor next
          have hg : HighClosed n (((h.alloc (.cArr [] [])).1.alloc
              (freshCellFor next)).1.update (h.alloc (.cArr [] [])).2
                (.cArr (setPadRef [] n0 ((h.alloc (.cArr [] [])).1.alloc
                  (freshCellFor next)).2) [])) := by
            apply highClosed_update
            · apply highClosed_alloc
              · exact highClosed_alloc h _ hhc (by intro x hx; simp [cellRefs] at hx)
              · rw [hfr]; intro x hx; simp at hx
            · intro x hx
              simp only [cellRefs] at hx
              rcases List.mem_append.mp hx with hx | hx
              · rcases setPadRef_refs [] n0 _ x (List.reduceOption_mem_iff.mp hx) with hx2 | hx2
                · simp at hx2
                · subst hx2
                  show n ≤ (h.alloc (.cArr [] [])).1.next
                  have : (h.alloc (.cArr [] [])).1.next = h.next + 1 := rfl
                  omega
              · simp at hx
          obtain ⟨ihl, ihn⟩ := walkHeap_frame n repl (next :: rest) _ _ hg
            (by show n ≤ (h.alloc (.cArr [] [])).1.next + 1; have : (h.alloc (.cArr [] [])).1.next = h.next + 1 := rfl; omega)
            (by show n ≤ (h.alloc (.cArr [] [])).1.next; have : (h.alloc (.cArr [] [])).1.next = h.next + 1 := rfl; omega)
          refine ⟨lowAgree_trans ?_ ihl, ihn⟩
          exact lowAgree_trans (lowAgree_alloc h _ (by omega))
            (lowAgree_trans (lowAgree_alloc _ _ (by have : (h.alloc (.cArr [] [])).1.next = h.next + 1 := rfl; omega))
              (lowAgree_update _ _ _ (by show n ≤ h.next; omega)))
        | cNum m =>
          have hfr := cellRefs_freshFor next
          have hg : HighClosed n (((h.alloc (.cArr [] [])).1.alloc
              (freshCellFor next)).1.update (h.alloc (.cArr [] [])).2
                (.cArr (setPadRef [] n0 ((h.alloc (.cArr [] [])).1.alloc
                  (freshCellFor next)).2) [])) := by
            apply highClosed_update
            · apply highClosed_alloc
              · exact highClosed_alloc h _ hhc (by intro x hx; simp [cellRefs] at hx)
              · rw [hfr]; intro x hx; simp at hx
            · intro x hx
              simp only [cellRefs] at hx
              rcases List.mem_append.mp hx with hx | hx
              · rcases setPadRef_refs [] n0 _ x (List.reduceOption_mem_iff.mp hx) with hx2 | hx2
                · simp at hx2
                · subst hx2
                  show n ≤ (h.alloc (.cArr [] [])).1.next
                  have : (h.alloc (.cArr [] [])).1.next = h.next + 1 := rfl
                  omega
              · simp at hx
          obtain ⟨ihl, ihn⟩ := walkHeap_frame n repl (next :: rest) _ _ hg
            (by show n ≤ (h.alloc (.cArr [] [])).1.next + 1; have : (h.alloc (.cArr [] [])).1.next = h.next + 1 := rfl; omega)
            (by show n ≤ (h.alloc (.cArr [] [])).1.next; have : (h.alloc (.cArr [] [])).1.next = h.next + 1 := rfl; omega)
          refine ⟨lowAgree_trans ?_ ihl, ihn⟩
          exact lowAgree_trans (lowAgree_alloc h _ (by omega))
            (lowAgree_trans (lowAgree_alloc _ _ (by have : (h.alloc (.cArr [] [])).1.next = h.next + 1 := rfl; omega))
              (lowAgree_update _ _ _ (by show n ≤ h.next; omega)))
        | cStr t =>
          have hfr := cellRefs_freshFor next
          have hg : HighClosed n (((h.alloc (.cArr [] [])).1.alloc
              (freshCellFor next)).1.update (h.alloc (.cArr [] [])).2
                (.cArr (setPadRef [] n0 ((h.alloc (.cArr [] [])).1.alloc
                  (freshCellFor next)).2) [])) := by
            apply highClosed_update
            · apply highClosed_alloc
              · exact highClosed_alloc h _ hhc (by intro x hx; simp [cellRefs] at hx)
              · rw [hfr]; intro x hx; simp at hx
            · intro x hx
              simp only [cellRefs] at hx
              rcases List.mem_append.mp hx with hx | hx
              · rcases setPadRef_refs [] n0 _ x (List.reduceOption_mem_iff.mp hx) with hx2 | hx2
                · simp at hx2
                · subst hx2
                  show n ≤ (h.alloc (.cArr [] [])).1.next
                  have : (h.alloc (.cArr [] [])).1.next = h.next + 1 := rfl
                  omega
              · simp at hx
          obtain ⟨ihl, ihn⟩ := walkHeap_frame n repl (next :: rest) _ _ hg
            (by show n ≤ (h.alloc (.cArr [] [])).1.next + 1; have : (h.alloc (.cArr [] [])).1.next = h.next + 1 := rfl; omega)
            (by show n ≤ (h.alloc (.cArr [] [])).1.next; have : (h.alloc (.cArr [] [])).1.next = h.next + 1 := rfl; omega)
          refine ⟨lowAgree_trans ?_ ihl, ihn⟩
          exact lowAgree_trans (lowAgree_alloc h _ (by omega))
            (lowAgree_trans (lowAgree_alloc _ _ (by have : (h.alloc (.cArr [] [])).1.next = h.next + 1 := rfl; omega))
              (lowAgree_update _ _ _ (by show n ≤ h.next; omega)))
    | key k =>
      rcases hlc : h.lookup cur with _ | c
      · exact ⟨lowAgree_refl n h, hnext⟩
      · cases c with
        | cObj fs =>
          dsimp only
          have hfreshrefs : ∀ x ∈ cellRefs (freshCellFor next), n ≤ x := by
            rw [cellRefs_freshFor]; intro x hx; simp at hx
          have huprefs : ∀ (fr : Nat), n ≤ fr →
              ∀ x ∈ cellRefs (Cell.cObj (upsert fs k fr)), n ≤ x := by
            intro fr hfrn x hx
            simp only [cellRefs] at hx
            rcases upsert_snd_mem fs k fr x hx with hx2 | hx2
            · exact hhc cur _ hlc hcur x (by simp only [cellRefs]; exact hx2)
            · subst hx2; exact hfrn
          rcases hfk : fs.lookup k with _ | r
          · have hg : HighClosed n ((h.alloc (freshCellFor next)).1.update cur
                (.cObj (upsert fs k (h.alloc (freshCellFor next)).2))) :=
              highClosed_update _ cur _ (highClosed_alloc h _ hhc hfreshrefs)
                (huprefs h.next hnext)
            obtain ⟨ihl, ihn⟩ := walkHeap_frame n repl (next :: rest) _ _ hg
              (by show n ≤ h.next + 1; omega) (by show n ≤ h.next; omega)
            refine ⟨lowAgree_trans ?_ ihl, ihn⟩
            exact lowAgree_trans (lowAgree_alloc h _ hnext) (lowAgree_update _ cur _ hcur)
          · dsimp only
            by_cases hol : cellObjectLike (h.lookup r) = true
            · rw [if_pos hol]
              have hrn : n ≤ r :=
                hhc cur _ hlc hcur r (by
                  simp only [cellRefs]
                  exact lookup_strkey_mem fs k r hfk)
              exact walkHeap_frame n repl (next :: rest) h r hhc hnext hrn
            · rw [if_neg hol]
              have hg : HighClosed n ((h.alloc (freshCellFor next)).1.update cur
                  (.cObj (upsert fs k (h.alloc (freshCellFor next)).2))) :=
                highClosed_update _ cur _ (highClosed_alloc h _ hhc hfreshrefs)
                  (huprefs h.next hnext)
              obtain ⟨ihl, ihn⟩ := walkHeap_frame n repl (next :: rest) _ _ hg
                (by show n ≤ h.next + 1; omega) (by show n ≤ h.next; omega)
              refine ⟨lowAgree_trans ?_ ihl, ihn⟩
              exact lowAgree_trans (lowAgree_alloc h _ hnext) (lowAgree_update _ cur _ hcur)
        | cArr es ex =>
          dsimp only
          have hfreshrefs : ∀ x ∈ cellRefs (freshCellFor next), n ≤ x := by
            rw [cellRefs_freshFor]; intro x hx; simp at hx
          have hsetrefs : ∀ (fr : Nat), n ≤ fr →
              ∀ x ∈ cellRefs (heapSetArrKey es ex k fr), n ≤ x := by
            intro fr hfrn x hx
            unfold heapSetArrKey at hx
            rcases hpi : parseArrayIndex k with _ | n0
            · rw [hpi] at hx
              simp only [cellRefs] at hx
              rcases List.mem_append.mp hx with hx | hx
              · exact hhc cur _ hlc hcur x (by
                  simp only [cellRefs]
                  exact List.mem_append.mpr (Or.inl hx))
              · rcases upsert_snd_mem ex k fr x hx with hx2 | hx2
                · exact hhc cur _ hlc hcur x (by
                    simp only [cellRefs]
                    exact List.mem_append.mpr (Or.inr hx2))
                · subst hx2; exact hfrn
            · rw [hpi] at hx
              simp only [cellRefs] at hx
              rcases List.mem_append.mp hx with hx | hx
              · rcases setPadRef_refs es n0 fr x (List.reduceOption_mem_iff.mp hx) with hx2 | hx2
                · exact hhc cur _ hlc hcur x (by
                    simp only [cellRefs]
                    exact List.mem_append.mpr (Or.inl (List.reduceOption_mem_iff.mpr hx2)))
                · subst hx2; exact hfrn
              · exact hhc cur _ hlc hcur x (by
                  simp only [cellRefs]
                  exact List.mem_append.mpr (Or.inr hx))
          rcases hak : heapArrKeyRef es ex k with _ | r
          · have hg : HighClosed n ((h.alloc (freshCellFor next)).1.update cur
                (heapSetArrKey es ex k (h.alloc (freshCellFor next)).2)) :=
              highClosed_update _ cur _ (highClosed_alloc h _ hhc hfreshrefs)
                (hsetrefs h.next hnext)
            obtain ⟨ihl, ihn⟩ := walkHeap_frame n repl (next :: rest) _ _ hg
              (by show n ≤ h.next + 1; omega) (by show n ≤ h.next; omega)
            refine ⟨lowAgree_trans ?_ ihl, ihn⟩
            exact lowAgree_trans (lowAgree_alloc h _ hnext) (lowAgree_update _ cur _ hcur)
          · dsimp only
            by_cases hol : cellObjectLike (h.lookup r) = true
            · rw [if_pos hol]
              have hrn : n ≤ r := by
                apply hhc cur _ hlc hcur r
                unfold heapArrKeyRef at hak
                rcases hpi : parseArrayIndex k with _ | n0
                · rw [hpi] at hak
                  simp only [cellRefs]
                  exact List.mem_append.mpr (Or.inr (lookup_strkey_mem ex k r hak))
                · rw [hpi] at hak
                  simp only [cellRefs]
                  apply List.mem_append.mpr (Or.inl _)
                  apply List.reduceOption_mem_iff.mpr
                  exact getD_some_mem es n0 none (some r) hak (by simp)
              exact walkHeap_frame n repl (next :: rest) h r hhc hnext hrn
            · rw [if_neg hol]
              have hg : HighClosed n ((h.alloc (freshCellFor next)).1.update cur
                  (heapSetArrKey es ex k (h.alloc (freshCellFor next)).2)) :=
                highClosed_update _ cur _ (highClosed_alloc h _ hhc hfreshrefs)
                  (hsetrefs h.next hnext)
              obtain ⟨ihl, ihn⟩ := walkHeap_frame n repl (next :: rest) _ _ hg
                (by show n ≤ h.next + 1; omega) (by show n ≤ h.next; omega)
              refine ⟨lowAgree_trans ?_ ihl, ihn⟩
              exact lowAgree_trans (lowAgree_alloc h _ hnext) (lowAgree_update _ cur _ hcur)
        | cNull => exact ⟨lowAgree_refl n h, hnext⟩
        | cBool b => exact ⟨lowAgree_refl n h, hnext⟩
        | cNum m => exact ⟨lowAgree_refl n h, hnext⟩
        | cStr t => exact ⟨lowAgree_refl n h, hnext⟩
termination_by p _ _ _ _ _ => p.length

/-! ## Claim C4 -/

/-- C4: the clone-then-mutate sequence of `handleSave`
(`const newRoot = JSON.parse(JSON.stringify(root));
const final = setValueAtPath(newRoot, path, replacement)`) operates only on
the deep, independent copy: for every well-formed heap, root reference, and
non-empty path, every cell of the original heap — in particular every cell
of the original root value — reads back unchanged after the mutator runs
(even if the mutator throws mid-walk), and the value the mutator returns is
the mutated copy itself (or an exception). -/
theorem c4_deep_copy (h : Heap) (root : Nat) (path : List Seg) (repl : Nat) (fuel : Nat)
    (res : Heap × Option Nat × Nat)
    (hwf : Heap.WF h) (hpath : path ≠ [])
    (hres : installClone h root path repl fuel = some res) :
    (∀ q c, h.lookup q = some c → res.1.lookup q = some c)
    ∧ (res.2.1 = some res.2.2 ∨ res.2.1 = none) := by
  unfold installClone at hres
  rcases hrv : readValueF fuel h root with _ | v
  · rw [hrv] at hres
    exact Option.noConfusion hres
  · rw [hrv] at hres
    dsimp only at hres
    injection hres with hres
    subst hres
    obtain ⟨g1, hle, hlt⟩ := allocValue_bounds h v
    rcases path with _ | ⟨s0, p⟩
    · exact absurd rfl hpath
    · unfold setValueAtPathHeap
      dsimp only
      obtain ⟨ihl, ihn⟩ := walkHeap_frame h.next repl (s0 :: p)
        (allocValue h v).1 (allocValue h v).2
        (goodExt_highClosed g1 hwf) g1.1 hle
      constructor
      · intro q c hq
        have hql : q < h.next := hwf (q, c) (lookup_some_mem h.cells q c hq)
        show (walkHeap repl (allocValue h v).1 (allocValue h v).2 (s0 :: p)).1.lookup q
          = some c
        rw [ihl q hql, goodExt_lowAgree g1 q hql]
        exact hq
      · show (if (walkHeap repl (allocValue h v).1 (allocValue h v).2 (s0 :: p)).2 = true
            then some (allocValue h v).2 else none) = some (allocValue h v).2
          ∨ (if (walkHeap repl (allocValue h v).1 (allocValue h v).2 (s0 :: p)).2 = true
            then some (allocValue h v).2 else none) = none
        rcases (walkHeap repl (allocValue h v).1 (allocValue h v).2 (s0 :: p)).2
        · right
          rfl
        · left
          rfl

/-- C4 witness: cloning `{"x": "v"}` (cells 0 and 1) and installing at
`["y"]` mutates only the fresh cells 2 and 3; the original cells read back
unchanged and the mutated copy (cell 3) is returned. -/
theorem c4_deep_copy_witness :
    (∀ q c, heapSmall.lookup q = some c →
      (⟨[(3, .cObj [("x", 2), ("y", 1)]), (3, .cObj [("x", 2)]), (2, .cStr "v"),
        (0, .cObj [("x", 1)]), (1, .cStr "v")], 4⟩ : Heap).lookup q = some c)
    ∧ ((some 3 : Option Nat) = some 3 ∨ (some 3 : Option Nat) = none) := by
  have hres : installClone heapSmall 0 [.key "y"] 1 5
      = some (⟨[(3, .cObj [("x", 2), ("y", 1)]), (3, .cObj [("x", 2)]), (2, .cStr "v"),
          (0, .cObj [("x", 1)]), (1, .cStr "v")], 4⟩, some 3, 3) := by
    unfold installClone
    rw [show readValueF 5 heapSmall 0 = some (.vObj [("x", .vStr "v")]) from rfl]
    dsimp only
    rw [show allocValue heapSmall (.vObj [("x", .vStr "v")])
        = (⟨[(3, .cObj [("x", 2)]), (2, .cStr "v"), (0, .cObj [("x", 1)]),
            (1, .cStr "v")], 4⟩, 3) from by
      simp [allocValue, allocFieldList, allocElemList, Heap.alloc, heapSmall]]
    rfl
  exact c4_deep_copy heapSmall 0 [.key "y"] 1 5 _
    (by intro p hp; fin_cases hp <;> simp [heapSmall]) (by simp) hres

end JsonCrack
